import Mathlib

/-!
Verification of `src/tools/amg_matlab2/cinterp_skel.c` (AMG interpolation
skeleton solver).  Shallow embedding: C doubles become `ℚ` (with the libm
`sqrt` call modelled as a function parameter), arrays become total functions
`ℕ → _` or lists, and the per-column while loop is given explicit fuel.
-/

namespace CInterpSkel

/-- Functional array update (C `a[i] = v` on a `double` array). -/
def updQ (a : ℕ → ℚ) (i : ℕ) (v : ℚ) : ℕ → ℚ :=
  fun j => if j = i then v else a j

/-- Functional array update on an index (`mwIndex`) array. -/
def updN (a : ℕ → ℕ) (i : ℕ) (v : ℕ) : ℕ → ℕ :=
  fun j => if j = i then v else a j

/-- Functional array update on a signed (`mwSignedIndex`) array. -/
def updZ (a : ℕ → ℤ) (i : ℕ) (v : ℤ) : ℕ → ℤ :=
  fun j => if j = i then v else a j

/-- Functional array update on the `char *flag` array (0/1 valued). -/
def updB (a : ℕ → Bool) (i : ℕ) (v : Bool) : ℕ → Bool :=
  fun j => if j = i then v else a j

@[simp] theorem updQ_same (a : ℕ → ℚ) (i : ℕ) (v : ℚ) : updQ a i v i = v := by
  simp [updQ]

@[simp] theorem updN_same (a : ℕ → ℕ) (i : ℕ) (v : ℕ) : updN a i v i = v := by
  simp [updN]

theorem updQ_other (a : ℕ → ℚ) {i j : ℕ} (v : ℚ) (h : j ≠ i) : updQ a i v j = a j := by
  simp [updQ, h]

theorem updN_other (a : ℕ → ℕ) {i j : ℕ} (v : ℕ) (h : j ≠ i) : updN a i v j = a j := by
  simp [updN, h]

/-! ### The shared heap machinery

`sp_mv` (lines 55-79) and `heap_sort` (lines 163-187) use the same max-heap
code: a sift-up insertion (`while(hole>1){...} heap[hole]=v`) and an
identical delete-max drain loop.  The heap is a 1-based view of an index
array (`heap = yi - 1` resp. `heap = uv - 1`); we embed it as a function
`ℕ → ℕ` read at positions `1..n`. -/

/-- Sift-up of value `v` starting at position `hole` (lines 57-62 of `sp_mv`
and the do-while of lines 168-173 of `heap_sort`):
`while(hole>1){ parent=hole>>1; ip=heap[parent]; if(v<ip) break;`
`heap[hole]=ip, hole=parent; } heap[hole]=v`. -/
def siftUp (a : ℕ → ℕ) (v hole : ℕ) : ℕ → ℕ :=
  if hole ≤ 1 then updN a hole v
  else if v < a (hole / 2) then updN a hole v
  else siftUp (updN a hole (a (hole / 2))) v (hole / 2)
termination_by hole
decreasing_by exact Nat.div_lt_self (by omega) (by omega)

/-- The larger-child selection `child=hole<<1, r=child+1;`
`if(r<m && heap[r]>heap[child]) child=r`. -/
def dchild (a : ℕ → ℕ) (hole m : ℕ) : ℕ :=
  if 2 * hole + 1 < m ∧ a (2 * hole) < a (2 * hole + 1) then 2 * hole + 1
  else 2 * hole

/-- One delete-max sift-down step (lines 72-78 of `sp_mv`, lines 179-185 of
`heap_sort`): place `v` starting from `hole` in a heap of size `m - 1`.
`if(child>=m || v>=heap[child]) break; heap[hole]=heap[child], hole=child`. -/
def siftDown (a : ℕ → ℕ) (v hole m : ℕ) : ℕ → ℕ :=
  -- the `hole = 0` disjunct is unreachable: callers start at `hole = 1`
  -- and every recursive call moves to a child position `dchild _ ≥ 2`
  if hole = 0 ∨ m ≤ dchild a hole m ∨ a (dchild a hole m) ≤ v then updN a hole v
  else siftDown (updN a hole (a (dchild a hole m))) v (dchild a hole m) m
termination_by m - hole
decreasing_by
  have : 2 * hole ≤ dchild a hole m := by unfold dchild; split <;> omega
  omega

/-- The heap-build loop of `heap_sort` (lines 166-174), processing positions
`i, i+1, ..., un`:  `for(i=2;i<=un;++i) if(heap[i]>heap[i>>1]) { sift-up }`. -/
def buildFrom (a : ℕ → ℕ) (i un : ℕ) : ℕ → ℕ :=
  if un < i then a
  else buildFrom (if a (i / 2) < a i then siftUp a (a i) i else a) (i + 1) un
termination_by un + 1 - i

/-- The delete-max drain loop (lines 68-79 of `sp_mv`, lines 175-186 of
`heap_sort`), processing `hi = hi0, hi0-1, ..., 2`:
`{ v=heap[hi]; heap[hi]=heap[1]; sift-down v from 1 in heap of size hi-1 }`. -/
def drainFrom (a : ℕ → ℕ) (hi : ℕ) : ℕ → ℕ :=
  if hi ≤ 1 then a
  else drainFrom (siftDown (updN a hi (a 1)) (a hi) 1 hi) (hi - 1)
termination_by hi

/-- `heap_sort` (lines 163-187): sorts `uv[0..un)` in place via the 1-based
heap view `heap = uv - 1`. -/
def heap_sort (un : ℕ) (uv : ℕ → ℕ) : ℕ → ℕ :=
  let heap : ℕ → ℕ := fun i => uv (i - 1)
  let a := drainFrom (buildFrom heap 2 un) un
  fun t => a (t + 1)

/-- The contents of the 1-based heap positions `1..n` as a list. -/
def toList (a : ℕ → ℕ) (n : ℕ) : List ℕ :=
  (List.range n).map fun t => a (t + 1)

/-- Max-heap property on positions `1..n`: every non-root is at most its
parent. -/
def isHeap (a : ℕ → ℕ) (n : ℕ) : Prop :=
  ∀ j, 2 ≤ j → j ≤ n → a j ≤ a (j / 2)

/-- Weak ascending order on heap positions `1..n`. -/
def SortedOn (a : ℕ → ℕ) (n : ℕ) : Prop :=
  ∀ p q, 1 ≤ p → p ≤ q → q ≤ n → a p ≤ a q

/-- `heap_sort` acting on a list (the C call sorts `uv[0..un)` in place). -/
def heap_sort_list (l : List ℕ) : List ℕ :=
  (List.range l.length).map (heap_sort l.length (fun t => l.getD t 0))

/-- Sparse vectors are (index, value) streams; ascending index order. -/
def ascPairs (l : List (ℕ × ℚ)) : Prop :=
  l.Pairwise (fun a b => a.1 < b.1)

instance (l : List (ℕ × ℚ)) : Decidable (ascPairs l) := by
  unfold ascPairs
  infer_instance

/-- `resid_update` (lines 90-144): `r := x - alpha*y` restricted to
`mask[i] < 0`, and `beta[i] (+)= y_i^2` on `y`'s support (`+=` where `x` is
also present, plain `=` where only `y` is).  Returns `(rnz, r, beta)`;
`rnz` is the emission counter `++rnz` of the C code. -/
def resid_update (mask : ℕ → ℤ) (alpha : ℚ) :
    List (ℕ × ℚ) → List (ℕ × ℚ) → (ℕ → ℚ) → ℕ × List (ℕ × ℚ) × (ℕ → ℚ)
  | [], [], beta => (0, [], beta)
  | [], (iy, yv) :: ys, beta =>
      -- tail flush of y (lines 135-142): beta[iy] = y*y, emit -alpha*y
      let out := resid_update mask alpha [] ys (updQ beta iy (yv * yv))
      if mask iy < 0 then (out.1 + 1, (iy, -alpha * yv) :: out.2.1, out.2.2)
      else out
  | (ix, xv) :: xs, [], beta =>
      -- tail flush of x (lines 128-134): emit x as is
      let out := resid_update mask alpha xs [] beta
      if mask ix < 0 then (out.1 + 1, (ix, xv) :: out.2.1, out.2.2)
      else out
  | (ix, xv) :: xs, (iy, yv) :: ys, beta =>
      if ix < iy then
        let out := resid_update mask alpha xs ((iy, yv) :: ys) beta
        if mask ix < 0 then (out.1 + 1, (ix, xv) :: out.2.1, out.2.2)
        else out
      else if iy < ix then
        let out := resid_update mask alpha ((ix, xv) :: xs) ys (updQ beta iy (yv * yv))
        if mask iy < 0 then (out.1 + 1, (iy, -alpha * yv) :: out.2.1, out.2.2)
        else out
      else
        let out := resid_update mask alpha xs ys (updQ beta iy (beta iy + yv * yv))
        if mask iy < 0 then (out.1 + 1, (iy, xv - alpha * yv) :: out.2.1, out.2.2)
        else out
termination_by x y _ => x.length + y.length

/-- Compressed-column sparse matrix (`sp_mat_c` of cinterp_common):
`jc` are column pointers, `ir` row indices, `pr` values. -/
structure sp_mat_c where
  m : ℕ
  n : ℕ
  jc : ℕ → ℕ
  ir : ℕ → ℕ
  pr : ℕ → ℚ

/-- The entries of column `j` of `A`, in storage order:
positions `A.jc j ≤ p < A.jc (j+1)` giving `(A.ir p, A.pr p)`. -/
def colEntries (A : sp_mat_c) (j : ℕ) : List (ℕ × ℚ) :=
  (List.range (A.jc (j + 1) - A.jc j)).map fun t =>
    (A.ir (A.jc j + t), A.pr (A.jc j + t))

/-- Column-ascending well-formedness: within each column the row indices
are strictly increasing (the CSC invariant of the inputs). -/
def colsAscending (A : sp_mat_c) : Prop :=
  ∀ j, j < A.n → (colEntries A j).Pairwise (fun a b => a.1 < b.1)

instance (A : sp_mat_c) : Decidable (colsAscending A) := by
  unfold colsAscending
  exact Nat.decidableBallLT _ _

/-- State of `sp_mv`'s accumulation loop (lines 44-67): heap of touched rows
(1-based, stored in the output index buffer), the dense scratch `sv`, the
membership marker `flag`, and the heap size `yn`. -/
structure MvState where
  yn : ℕ
  heap : ℕ → ℕ
  sv : ℕ → ℚ
  flag : ℕ → Bool

/-- Processing one entry `(i, Apr)` of a column of `A` against the x-component
`xj` (lines 50-66): rows with `mask[i] >= 0` are skipped; a first touch pushes
`i` on the heap, sets `flag[i]`, zeroes `sv[i]`; then `sv[i] += Apr*xj`. -/
def spmv_entry (mask : ℕ → ℤ) (xj : ℚ) (st : MvState) (e : ℕ × ℚ) : MvState :=
  if 0 ≤ mask e.1 then st
  else
    let st1 := if st.flag e.1 = false then
        { yn := st.yn + 1, heap := siftUp st.heap e.1 (st.yn + 1),
          sv := updQ st.sv e.1 0, flag := updB st.flag e.1 true }
      else st
    { st1 with sv := updQ st1.sv e.1 (st1.sv e.1 + e.2 * xj) }

/-- The outer accumulation loop of `sp_mv` (lines 44-67): for each sparse
component `(j, xj)` of `x`, skip if `xj` is exactly zero, else fold the
entries of column `j` of `A`. -/
def spmv_accum (A : sp_mat_c) (mask : ℕ → ℤ) (st : MvState)
    (x : List (ℕ × ℚ)) : MvState :=
  x.foldl (fun st e =>
    if |e.2| = 0 then st
    else (colEntries A e.1).foldl (spmv_entry mask e.2) st) st

/-- `sp_mv` (lines 38-82): `y := A*x` masked, emitted with ascending indices.
`yi0` is the arbitrary initial content of the caller's index buffer (the heap
lives inside it, `heap = yi - 1`).  Returns
`(nnz(y), indices of y, values of y, final sv, final flag)`. -/
def sp_mv (A : sp_mat_c) (x : List (ℕ × ℚ)) (yi0 : ℕ → ℕ) (sv : ℕ → ℚ)
    (flag : ℕ → Bool) (mask : ℕ → ℤ) :
    ℕ × List ℕ × List ℚ × (ℕ → ℚ) × (ℕ → Bool) :=
  let st := spmv_accum A mask ⟨0, yi0, sv, flag⟩ x
  let a := drainFrom st.heap st.yn
  let yi := (List.range st.yn).map fun t => a (t + 1)
  (st.yn, yi, yi.map st.sv, st.sv, yi.foldl (fun f i => updB f i false) st.flag)

/-- Net contribution of one stored column (list of `(row, value)` entries)
to row `i`. -/
def lSum (l : List (ℕ × ℚ)) (i : ℕ) : ℚ :=
  (l.map fun e => if e.1 = i then e.2 else 0).sum

/-- The mathematical value `(A*x)_i`, summing over the components of the
sparse vector `x`. -/
def xTotal (A : sp_mat_c) (x : List (ℕ × ℚ)) (i : ℕ) : ℚ :=
  (x.map fun e => e.2 * lSum (colEntries A e.1) i).sum

/-- Heap + marker invariant of the accumulation loop. -/
def MvInv (mask : ℕ → ℤ) (st : MvState) : Prop :=
  isHeap st.heap st.yn ∧ (toList st.heap st.yn).Nodup ∧
    (∀ i, st.flag i = true ↔ i ∈ toList st.heap st.yn) ∧
    (∀ i ∈ toList st.heap st.yn, mask i < 0)

/-- The tolerance rescale on entry of `interp_skel` (lines 215-219):
`tol *= .5*tol` under STOP_TEST 1, `tol *= .5` under STOP_TEST 2;
other values of the build flag leave `tol` unchanged. -/
def adjustTol (stop_test : ℕ) (tol : ℚ) : ℚ :=
  if stop_test = 1 then tol * (1/2 * tol)
  else if stop_test = 2 then tol * (1/2)
  else tol

/-- Accumulator of the pivot/norm scans: the running best pivot `s`, its
weight `w`, and the running stopping `norm`. -/
structure ScanAcc where
  s : ℕ
  w : ℚ
  norm : ℚ

/-- One step of the scan loops (lines 268-278 and 349-358):
`if(fabs(tw)>fabs(w)) w=tw,s=i;` then the STOP_TEST-dependent norm update
(`if(tn>norm) norm=tn` for 1, `norm+=tn` for 2, nothing otherwise). -/
def scanStep (stop_test : ℕ) (acc : ScanAcc) (i : ℕ) (tw tn : ℚ) : ScanAcc :=
  { s := if |acc.w| < |tw| then i else acc.s,
    w := if |acc.w| < |tw| then tw else acc.w,
    norm := if stop_test = 1 then (if acc.norm < tn then tn else acc.norm)
      else if stop_test = 2 then acc.norm + tn else acc.norm }

/-- The initial pivot/norm scan over `r = B e_j` (lines 267-278); `d = D[i]`.
The empty case is unreachable (guarded by `rnz < 1` at line 258). -/
def initScan (stop_test : ℕ) (sqrt : ℚ → ℚ) (D : ℕ → ℚ)
    (r : List (ℕ × ℚ)) : ScanAcc :=
  match r with
  | [] => ⟨0, 0, 0⟩
  | e0 :: rest =>
      rest.foldl (fun acc e =>
          scanStep stop_test acc e.1 (e.2 / sqrt (D e.1)) |e.2 / D e.1|)
        ⟨e0.1, e0.2 / sqrt (D e0.1), |e0.2 / D e0.1|⟩

/-- The re-scan after a residual update (lines 344-358); `d = D[i]-beta[i]`.
When `r` is empty `norm := 0` and `s`, `w` keep their previous values. -/
def reScan (stop_test : ℕ) (sqrt : ℚ → ℚ) (D beta : ℕ → ℚ)
    (r : List (ℕ × ℚ)) (s0 : ℕ) (w0 : ℚ) : ScanAcc :=
  match r with
  | [] => ⟨s0, w0, 0⟩
  | e0 :: rest =>
      rest.foldl (fun acc e =>
          scanStep stop_test acc e.1 (e.2 / sqrt (D e.1 - beta e.1))
            |e.2 / (D e.1 - beta e.1)|)
        ⟨e0.1, e0.2 / sqrt (D e0.1 - beta e0.1), |e0.2 / (D e0.1 - beta e0.1)|⟩

/-- Modelled from the spec: `sp_restrict_unsorted` lives in cinterp_common,
which is not under src/.  Spec 4.3: gather `A e_s` restricted to the current
pivot set into a dense length-`(k+1)` vector via `map_to_Qi`. -/
def sp_restrict_unsorted (k : ℕ) (map_to_Qi : ℕ → ℤ) (col : List (ℕ × ℚ)) :
    List ℚ :=
  (List.range (k + 1)).map fun t =>
    ((col.filter fun e => map_to_Qi e.1 = (t : ℤ)).map Prod.snd).sum

/-- Modelled from the spec: `mv_utt` lives in cinterp_common, not under src/.
Spec 4.3: `out := (Q[:,0:k])ᵀ·x`, a `k`-length dense output. -/
def mv_utt (k : ℕ) (Q : List (List ℚ)) (x : List ℚ) : List ℚ :=
  (List.range k).map fun l =>
    ((List.range (l + 1)).map fun t => (Q.getD l []).getD t 0 * x.getD t 0).sum

/-- Modelled from the spec: `mv_ut` lives in cinterp_common, not under src/.
Spec 4.3: `out := Q[:,0:k]·x`, a `(k+1)`-length dense output whose last
component is 0. -/
def mv_ut (k : ℕ) (Q : List (List ℚ)) (x : List ℚ) : List ℚ :=
  (List.range (k + 1)).map fun t =>
    ((List.range k).map fun l =>
      if t ≤ l then (Q.getD l []).getD t 0 * x.getD l 0 else 0).sum

/-- Per-column state of the expansion loop of `interp_skel` (lines 242-360). -/
structure ColState where
  k : ℕ
  Qi : List ℕ
  Q : List (List ℚ)
  rv : List (ℕ × ℚ)
  beta : ℕ → ℚ
  map_to_Qi : ℕ → ℤ
  X_sum : ℕ → ℚ
  sv : ℕ → ℚ
  flag : ℕ → Bool
  s : ℕ
  w : ℚ
  norm : ℚ

/-- One iteration of the expansion loop (lines 279-359): record pivot `s`,
build the new `Q` column, accumulate `X_sum`, compute `A q_k` by the masked
`sp_mv`, update the residual and `beta`, and re-scan for the next pivot.
(The reallocation checks of lines 283-295 are absorbed by the functional
model; the `sp` scratch aliasing is harmless since `sp_mv` zeroes `sv[i]`
before reading it, so its initial content is passed as an all-zero map.) -/
def colBody (stop_test : ℕ) (sqrt : ℚ → ℚ) (A : sp_mat_c) (D : ℕ → ℚ)
    (uj : ℚ) (st : ColState) : ColState :=
  let k := st.k
  let s := st.s
  let w := st.w
  let Qi' := st.Qi ++ [s]
  let map' := updZ st.map_to_Qi s (k : ℤ)
  let g := sp_restrict_unsorted k map' (colEntries A s)
  let t1 := mv_utt k st.Q g
  let qk2 := mv_ut k st.Q t1
  let norm_fac := -1 / sqrt (D s - st.beta s)
  let qk := ((List.range k).map fun m => qk2.getD m 0 * norm_fac) ++ [-norm_fac]
  let X_sum' := (List.range (k + 1)).foldl
    (fun X m => updQ X (Qi'.getD m 0) (X (Qi'.getD m 0) + uj * w * qk.getD m 0))
    st.X_sum
  let aq := sp_mv A (Qi'.zip qk) (fun _ => 0) (fun _ => 0) st.flag map'
  let ru := resid_update map' w st.rv (aq.2.1.zip aq.2.2.1) st.beta
  let sc := reScan stop_test sqrt D ru.2.2 ru.2.1 s w
  { k := k + 1, Qi := Qi', Q := st.Q ++ [qk], rv := ru.2.1, beta := ru.2.2,
    map_to_Qi := map', X_sum := X_sum', sv := aq.2.2.2.1, flag := aq.2.2.2.2,
    s := sc.s, w := sc.w, norm := sc.norm }

/-- The `while(norm>tol)` loop (line 279), given explicit fuel. -/
def colLoop (stop_test : ℕ) (sqrt : ℚ → ℚ) (A : sp_mat_c) (D : ℕ → ℚ)
    (uj tol : ℚ) : ℕ → ColState → ColState
  | 0, st => st
  | fuel + 1, st =>
      if tol < st.norm then
        colLoop stop_test sqrt A D uj tol fuel (colBody stop_test sqrt A D uj st)
      else st

/-- The driver state shared between columns. -/
structure GState where
  beta : ℕ → ℚ
  map_to_Qi : ℕ → ℤ
  X_sum : ℕ → ℚ
  sv : ℕ → ℚ
  flag : ℕ → Bool

/-- One column of `interp_skel` (lines 242-368): empty columns of `B` are
skipped (lines 257-258); otherwise the residual is initialised to `B e_j`,
`beta` is zeroed on its support, the initial pivot and norm are scanned, the
expansion loop runs, the pivot list is sorted, and `map_to_Qi` is reset. -/
def processColumn (stop_test : ℕ) (sqrt : ℚ → ℚ) (A B : sp_mat_c) (D : ℕ → ℚ)
    (uj tol : ℚ) (fuel j : ℕ) (g : GState) : List ℕ × GState :=
  let rnz := B.jc (j + 1) - B.jc j
  if rnz < 1 then ([], g)
  else
    let r0 := colEntries B j
    let beta1 := r0.foldl (fun b e => updQ b e.1 0) g.beta
    let sc := initScan stop_test sqrt D r0
    let st0 : ColState :=
      ⟨0, [], [], r0, beta1, g.map_to_Qi, g.X_sum, g.sv, g.flag, sc.s, sc.w, sc.norm⟩
    let st := colLoop stop_test sqrt A D uj tol fuel st0
    let Qs := heap_sort_list st.Qi
    let map' := Qs.foldl (fun mp i => updZ mp i (-1)) st.map_to_Qi
    (Qs, ⟨st.beta, map', st.X_sum, st.sv, st.flag⟩)

/-- The first `j` columns of the driver loop (lines 241-369), starting from
zeroed `X_sum`, all `-1` `map_to_Qi`, all-zero `flag`, and the arbitrary
initial contents `beta0`, `sv0` of the freshly allocated buffers. -/
def driverAux (stop_test : ℕ) (sqrt : ℚ → ℚ) (fuel : ℕ) (A B : sp_mat_c)
    (D u : ℕ → ℚ) (tol' : ℚ) (beta0 sv0 : ℕ → ℚ) (j : ℕ) :
    List (List ℕ) × GState :=
  (List.range j).foldl
    (fun acc j =>
      let out := processColumn stop_test sqrt A B D (u j) tol' fuel j acc.2
      (acc.1 ++ [out.1], out.2))
    ([], ⟨beta0, fun _ => -1, fun _ => 0, sv0, fun _ => false⟩)

/-- `interp_skel` (lines 197-372): rescale the tolerance once on entry, then
run every column.  Returns the emitted skeleton columns (in order) and the
final driver state (whose `X_sum` is the output row sum). -/
def interp_skel (stop_test : ℕ) (sqrt : ℚ → ℚ) (fuel : ℕ) (A B : sp_mat_c)
    (D u : ℕ → ℚ) (tol : ℚ) (beta0 sv0 : ℕ → ℚ) : List (List ℕ) × GState :=
  driverAux stop_test sqrt fuel A B D u (adjustTol stop_test tol) beta0 sv0 B.n

/-- The `X_skel.jc` column-pointer values determined by the emitted columns. -/
def skel_jc (cols : List (List ℕ)) (j : ℕ) : ℕ :=
  ((cols.take j).map List.length).sum

/-- A MATLAB array header as seen through the mx API (the mx accessors are
the MATLAB FFI, modelled as record fields). -/
structure mxArray where
  isSparse : Bool
  isDouble : Bool
  isComplex : Bool
  m : ℕ
  n : ℕ
  ir : ℕ → ℕ
  jc : ℕ → ℕ
  pr : ℕ → ℚ

/-- `mexFunction` (lines 375-420): the argument checks in source order; a
failing check emits its diagnostic and returns before the outputs are
created.  On success the outputs of `interp_skel` are produced. -/
def mexFunction (stop_test : ℕ) (sqrt : ℚ → ℚ) (fuel : ℕ)
    (beta0 sv0 : ℕ → ℚ) (nlhs nrhs : ℕ) (prhs : ℕ → mxArray) :
    Except String (List (List ℕ) × GState) :=
  if nrhs ≠ 5 then .error "Five inputs required."
  else if nlhs ≠ 2 then .error "Two outputs required."
  else if ¬(prhs 0).isSparse = true ∨ ¬(prhs 0).isDouble = true
      ∨ (prhs 0).isComplex = true then
    .error "First input not a sparse, double, real matrix."
  else if ¬(prhs 1).isSparse = true ∨ ¬(prhs 1).isDouble = true
      ∨ (prhs 1).isComplex = true then
    .error "Second input not a sparse, double, real matrix."
  else if (prhs 2).isSparse = true ∨ ¬(prhs 2).isDouble = true
      ∨ (prhs 2).isComplex = true then
    .error "Third input not a full, double, real array."
  else if (prhs 3).isSparse = true ∨ ¬(prhs 3).isDouble = true
      ∨ (prhs 3).isComplex = true then
    .error "Fourth input not a full, double, real array."
  else if (prhs 4).isSparse = true ∨ ¬(prhs 4).isDouble = true
      ∨ (prhs 4).isComplex = true ∨ (prhs 4).m ≠ 1 ∨ (prhs 4).n ≠ 1 then
    .error "Fifth input not a double real scalar."
  else if (prhs 0).m ≠ (prhs 0).n then .error "A not square."
  else if (prhs 0).m ≠ (prhs 1).m then .error "rows(A) != rows(B)"
  else if (prhs 2).m ≠ (prhs 0).m ∨ (prhs 2).n ≠ 1 then
    .error "D not a column vector, or rows(D) != rows(A)"
  else if (prhs 3).m ≠ (prhs 1).n ∨ (prhs 3).n ≠ 1 then
    .error "u not a column vector, or rows(u) != cols(B)"
  else
    .ok (interp_skel stop_test sqrt fuel
      ⟨(prhs 0).m, (prhs 0).n, (prhs 0).jc, (prhs 0).ir, (prhs 0).pr⟩
      ⟨(prhs 1).m, (prhs 1).n, (prhs 1).jc, (prhs 1).ir, (prhs 1).pr⟩
      (prhs 2).pr (prhs 3).pr ((prhs 4).pr 0) beta0 sv0)


theorem toList_length (a : ℕ → ℕ) (n : ℕ) : (toList a n).length = n := by
  simp [toList]

theorem toList_getElem (a : ℕ → ℕ) (n t : ℕ) (ht : t < n) :
    getElem (toList a n) t (by simpa [toList] using ht) = a (t + 1) := by
  simp [toList]

theorem toList_updN_set (a : ℕ → ℕ) {i : ℕ} (v n : ℕ) (h1 : 1 ≤ i) (h2 : i ≤ n) :
    toList (updN a i v) n = (toList a n).set (i - 1) v := by
  apply List.ext_getElem
  · simp [toList]
  · intro t ht _
    have ht' : t < n := by simpa [toList] using ht
    rw [toList_getElem _ _ _ ht', List.getElem_set]
    by_cases hti : i - 1 = t
    · simp [← hti, updN, Nat.sub_add_cancel h1]
    · have : t + 1 ≠ i := by omega
      rw [if_neg hti, updN_other _ _ this, toList_getElem _ _ _ ht']

theorem toList_updN_out (a : ℕ → ℕ) {i : ℕ} (v n : ℕ) (h : i = 0 ∨ n < i) :
    toList (updN a i v) n = toList a n := by
  apply List.ext_getElem
  · simp [toList]
  · intro t ht _
    have ht' : t < n := by simpa [toList] using ht
    rw [toList_getElem _ _ _ ht', toList_getElem _ _ _ ht',
      updN_other _ _ (by omega)]

theorem toList_congrOn (a b : ℕ → ℕ) (n : ℕ)
    (h : ∀ j, 1 ≤ j → j ≤ n → a j = b j) : toList a n = toList b n := by
  apply List.ext_getElem
  · simp [toList]
  · intro t ht _
    have ht' : t < n := by simpa [toList] using ht
    rw [toList_getElem _ _ _ ht', toList_getElem _ _ _ ht', h _ (by omega) (by omega)]

theorem cons_set_perm : ∀ (l : List ℕ) (q x y : ℕ), q < l.length →
    List.Perm (x :: l.set q y) (y :: l.set q x)
  | [], q, x, y, h => by simp at h
  | a :: t, 0, x, y, _ => by
      simpa using List.Perm.swap y x t
  | a :: t, q + 1, x, y, h => by
      have hq : q < t.length := by simpa using h
      have s1 : List.Perm (x :: a :: t.set q y) (a :: x :: t.set q y) :=
        List.Perm.swap a x _
      have s2 : List.Perm (a :: x :: t.set q y) (a :: y :: t.set q x) :=
        (cons_set_perm t q x y hq).cons a
      have s3 : List.Perm (a :: y :: t.set q x) (y :: a :: t.set q x) :=
        List.Perm.swap y a _
      simpa using (s1.trans s2).trans s3

theorem set_set_perm : ∀ (l : List ℕ) (p q x y : ℕ), p ≠ q →
    p < l.length → q < l.length →
    List.Perm ((l.set p x).set q y) ((l.set p y).set q x)
  | [], p, q, x, y, _, hp, _ => by simp at hp
  | a :: t, 0, 0, x, y, hpq, _, _ => absurd rfl hpq
  | a :: t, 0, q + 1, x, y, _, _, hq => by
      have hq' : q < t.length := by simpa using hq
      simpa using cons_set_perm t q x y hq'
  | a :: t, p + 1, 0, x, y, _, hp, _ => by
      have hp' : p < t.length := by simpa using hp
      simpa using cons_set_perm t p y x hp'
  | a :: t, p + 1, q + 1, x, y, hpq, hp, hq => by
      have hp' : p < t.length := by simpa using hp
      have hq' : q < t.length := by simpa using hq
      simpa using (set_set_perm t p q x y (by omega) hp' hq').cons a

/-- Swapping the contents of two in-range positions permutes the heap list. -/
theorem toList_swap_perm (a : ℕ → ℕ) {i j : ℕ} (x y : ℕ) (n : ℕ)
    (hij : i ≠ j) (hi1 : 1 ≤ i) (hin : i ≤ n) (hj1 : 1 ≤ j) (hjn : j ≤ n) :
    List.Perm (toList (updN (updN a i x) j y) n) (toList (updN (updN a i y) j x) n) := by
  rw [toList_updN_set _ _ _ hj1 hjn, toList_updN_set _ _ _ hj1 hjn,
    toList_updN_set _ _ _ hi1 hin, toList_updN_set _ _ _ hi1 hin]
  exact set_set_perm _ _ _ _ _ (by omega) (by simp [toList]; omega)
    (by simp [toList]; omega)

theorem siftUp_frame : ∀ (hole : ℕ) (a : ℕ → ℕ) (v : ℕ), 1 ≤ hole →
    ∀ j, (j = 0 ∨ hole < j) → siftUp a v hole j = a j := by
  intro hole
  induction hole using Nat.strong_induction_on with
  | _ hole ih =>
    intro a v h1 j hj
    rw [siftUp]
    split
    · exact updN_other _ _ (by omega)
    · split
      · exact updN_other _ _ (by omega)
      · have hplt : hole / 2 < hole := Nat.div_lt_self (by omega) (by omega)
        rw [ih _ hplt _ _ (by omega) j (by omega), updN_other _ _ (by omega)]

theorem siftUp_perm : ∀ (hole : ℕ) (a : ℕ → ℕ) (v n : ℕ), 1 ≤ hole → hole ≤ n →
    List.Perm (toList (siftUp a v hole) n) (toList (updN a hole v) n) := by
  intro hole
  induction hole using Nat.strong_induction_on with
  | _ hole ih =>
    intro a v n h1 hn
    rw [siftUp]
    split
    · exact List.Perm.refl _
    · split
      · exact List.Perm.refl _
      · have hplt : hole / 2 < hole := Nat.div_lt_self (by omega) (by omega)
        have hp1 : 1 ≤ hole / 2 := by omega
        refine (ih _ hplt _ v n hp1 (by omega)).trans ?_
        refine (toList_swap_perm a (a (hole / 2)) v n (by omega) (by omega) hn
          hp1 (by omega)).trans ?_
        apply List.Perm.of_eq
        apply toList_congrOn
        intro j hj1 hjn
        by_cases hjp : j = hole / 2
        · subst hjp
          rw [updN_same, updN_other _ _ (by omega)]
        · rw [updN_other _ _ hjp]

theorem siftUp_heap : ∀ (hole : ℕ) (a : ℕ → ℕ) (v m : ℕ), 1 ≤ hole → hole ≤ m →
    (∀ j, 2 ≤ j → j ≤ m → j ≠ hole → (a j ≤ a (j / 2) ∨ j / 2 = hole)) →
    (∀ j, 2 ≤ j → j ≤ m → j / 2 = hole → a j ≤ v) →
    (2 ≤ hole → ∀ j, 2 ≤ j → j ≤ m → j / 2 = hole → a j ≤ a (hole / 2)) →
    isHeap (siftUp a v hole) m := by
  intro hole
  induction hole using Nat.strong_induction_on with
  | _ hole ih =>
    intro a v m h1 hm hA hB hC
    rw [siftUp]
    split
    · -- hole = 1
      have hh : hole = 1 := by omega
      subst hh
      intro j hj2 hjm
      by_cases hpar : j / 2 = 1
      · rw [updN_other _ _ (by omega), hpar, updN_same]
        exact hB j hj2 hjm hpar
      · rw [updN_other _ _ (by omega), updN_other _ _ (by omega)]
        rcases hA j hj2 hjm (by omega) with h | h
        · exact h
        · exact absurd h hpar
    · rename_i hh2
      split
      · -- v < a (hole / 2) : final placement
        rename_i hlt
        intro j hj2 hjm
        by_cases hje : j = hole
        · subst hje
          have : j / 2 ≠ j := by omega
          rw [updN_same, updN_other _ _ this]
          exact le_of_lt hlt
        · by_cases hpar : j / 2 = hole
          · rw [updN_other _ _ hje, hpar, updN_same]
            exact hB j hj2 hjm hpar
          · rw [updN_other _ _ hje, updN_other _ _ hpar]
            rcases hA j hj2 hjm hje with h | h
            · exact h
            · exact absurd h hpar
      · -- move parent down, recurse
        rename_i hge
        have hge' : a (hole / 2) ≤ v := by omega
        have hplt : hole / 2 < hole := Nat.div_lt_self (by omega) (by omega)
        have hp1 : 1 ≤ hole / 2 := by omega
        apply ih _ hplt _ v m hp1 (by omega)
        · -- (A) for the updated array at the parent hole
          intro j hj2 hjm hjp
          by_cases hje : j = hole
          · right; omega
          · by_cases hpar : j / 2 = hole
            · left
              have hj2h : 2 * hole ≤ j := by omega
              rw [updN_other _ _ hje, hpar, updN_same]
              have := hC (by omega) j hj2 hjm hpar
              exact this
            · left
              rw [updN_other _ _ hje, updN_other _ _ hpar]
              rcases hA j hj2 hjm hje with h | h
              · exact h
              · exact absurd h hpar
        · -- (B): children of the new hole are at most v
          intro j hj2 hjm hpar
          by_cases hje : j = hole
          · subst hje; rw [updN_same]; exact hge'
          · rw [updN_other _ _ hje]
            rcases hA j hj2 hjm hje with h | h
            · calc a j ≤ a (j / 2) := h
                _ ≤ v := by rw [hpar]; exact hge'
            · omega
        · -- (C): children of the new hole are at most its parent
          intro hp2 j hj2 hjm hpar
          have hpp : hole / 2 / 2 ≠ hole := by omega
          rw [updN_other _ _ hpp]
          by_cases hje : j = hole
          · rw [hje, updN_same]
            rcases hA (hole / 2) (by omega) (by omega) (by omega) with h | h
            · exact h
            · omega
          · rw [updN_other _ _ hje]
            have hja : a j ≤ a (hole / 2) := by
              rcases hA j hj2 hjm hje with h | h
              · rw [hpar] at h; exact h
              · omega
            have : a (hole / 2) ≤ a (hole / 2 / 2) := by
              rcases hA (hole / 2) (by omega) (by omega) (by omega) with h | h
              · exact h
              · omega
            exact hja.trans this

theorem buildFrom_frame : ∀ (a : ℕ → ℕ) (i un : ℕ), 1 ≤ i →
    ∀ j, (j = 0 ∨ un < j) → buildFrom a i un j = a j := by
  intro a i un
  induction a, i, un using buildFrom.induct with
  | case1 a i un hlt =>
    intro _ j _
    rw [buildFrom, if_pos hlt]
  | case2 a i un hlt ih =>
    intro h1 j hj
    rw [buildFrom, if_neg hlt]
    by_cases hcond : a (i / 2) < a i
    · rw [if_pos hcond]
      rw [dif_pos hcond] at ih
      rw [ih (by omega) j hj, siftUp_frame i a (a i) (by omega) j (by omega)]
    · rw [if_neg hcond]
      rw [dif_neg hcond] at ih
      exact ih (by omega) j hj

theorem buildFrom_perm : ∀ (a : ℕ → ℕ) (i un : ℕ), 1 ≤ i →
    List.Perm (toList (buildFrom a i un) un) (toList a un) := by
  intro a i un
  induction a, i, un using buildFrom.induct with
  | case1 a i un hlt =>
    intro _
    rw [buildFrom, if_pos hlt]
  | case2 a i un hlt ih =>
    intro h1
    rw [buildFrom, if_neg hlt]
    by_cases hcond : a (i / 2) < a i
    · rw [if_pos hcond]
      rw [dif_pos hcond] at ih
      refine (ih (by omega)).trans ?_
      refine (siftUp_perm i a (a i) un (by omega) (by omega)).trans ?_
      apply List.Perm.of_eq
      apply toList_congrOn
      intro j _ _
      by_cases hji : j = i
      · subst hji; rw [updN_same]
      · rw [updN_other _ _ hji]
    · rw [if_neg hcond]
      rw [dif_neg hcond] at ih
      exact ih (by omega)

theorem buildFrom_heap : ∀ (a : ℕ → ℕ) (i un : ℕ), 2 ≤ i → isHeap a (i - 1) →
    isHeap (buildFrom a i un) un := by
  intro a i un
  induction a, i, un using buildFrom.induct with
  | case1 a i un hlt =>
    intro h2 hheap
    rw [buildFrom, if_pos hlt]
    intro j hj2 hjun
    exact hheap j hj2 (by omega)
  | case2 a i un hlt ih =>
    intro h2 hheap
    rw [buildFrom, if_neg hlt]
    by_cases hcond : a (i / 2) < a i
    · rw [if_pos hcond]
      rw [dif_pos hcond] at ih
      apply ih (by omega)
      have : isHeap (siftUp a (a i) i) i := by
        apply siftUp_heap i a (a i) i (by omega) le_rfl
        · intro j hj2 hji hjne
          left
          exact hheap j hj2 (by omega)
        · intro j hj2 hji hpar
          omega
        · intro _ j hj2 hji hpar
          omega
      intro j hj2 hj
      exact this j hj2 (by omega)
    · rw [if_neg hcond]
      rw [dif_neg hcond] at ih
      apply ih (by omega)
      intro j hj2 hj
      by_cases hji : j = i
      · subst hji; omega
      · exact hheap j hj2 (by omega)

theorem dchild_ge (a : ℕ → ℕ) (hole m : ℕ) : 2 * hole ≤ dchild a hole m := by
  unfold dchild; split <;> omega

theorem dchild_le (a : ℕ → ℕ) (hole m : ℕ) : dchild a hole m ≤ 2 * hole + 1 := by
  unfold dchild; split <;> omega

theorem siftDown_frame : ∀ (a : ℕ → ℕ) (v hole m : ℕ), 1 ≤ hole → hole < m →
    ∀ j, (j = 0 ∨ m ≤ j) → siftDown a v hole m j = a j := by
  intro a v hole m
  induction a, v, hole, m using siftDown.induct with
  | case1 a v hole m hbreak =>
    intro h1 hm j hj
    rw [siftDown, if_pos hbreak, updN_other _ _ (by omega)]
  | case2 a v hole m hbreak ih =>
    intro h1 hm j hj
    rw [siftDown, if_neg hbreak]
    push_neg at hbreak
    have hc2 : 2 * hole ≤ dchild a hole m := dchild_ge a hole m
    rw [ih (by omega) (by omega) j hj, updN_other _ _ (by omega)]

theorem dchild_cases (a : ℕ → ℕ) (hole m : ℕ) :
    (dchild a hole m = 2 * hole + 1 ∧ 2 * hole + 1 < m ∧ a (2 * hole) < a (2 * hole + 1)) ∨
    (dchild a hole m = 2 * hole ∧ (2 * hole + 1 < m → a (2 * hole + 1) ≤ a (2 * hole))) := by
  unfold dchild
  split
  · rename_i h
    exact Or.inl ⟨rfl, h.1, h.2⟩
  · rename_i h
    push_neg at h
    right
    exact ⟨rfl, fun hlt => h hlt⟩

theorem dchild_div2 (a : ℕ → ℕ) (hole m : ℕ) (h1 : 1 ≤ hole) :
    dchild a hole m / 2 = hole := by
  rcases dchild_cases a hole m with ⟨he, _, _⟩ | ⟨he, _⟩ <;> omega

theorem siftDown_perm : ∀ (a : ℕ → ℕ) (v hole m : ℕ) (n : ℕ), 1 ≤ hole → hole < m →
    m - 1 ≤ n →
    List.Perm (toList (siftDown a v hole m) n) (toList (updN a hole v) n) := by
  intro a v hole m
  induction a, v, hole, m using siftDown.induct with
  | case1 a v hole m hbreak =>
    intro n h1 hm hn
    rw [siftDown, if_pos hbreak]
  | case2 a v hole m hbreak ih =>
    intro n h1 hm hn
    rw [siftDown, if_neg hbreak]
    push_neg at hbreak
    have hc2 : 2 * hole ≤ dchild a hole m := dchild_ge a hole m
    have hcm : dchild a hole m < m := hbreak.2.1
    refine (ih n (by omega) hcm hn).trans ?_
    refine (toList_swap_perm a (a (dchild a hole m)) v n (by omega) (by omega)
      (by omega) (by omega) (by omega)).trans ?_
    apply List.Perm.of_eq
    apply toList_congrOn
    intro j _ _
    by_cases hjc : j = dchild a hole m
    · subst hjc
      rw [updN_same, updN_other _ _ (by omega)]
    · rw [updN_other _ _ hjc]

theorem siftDown_heap : ∀ (a : ℕ → ℕ) (v hole m : ℕ), 1 ≤ hole → hole < m →
    (∀ j, 2 ≤ j → j ≤ m - 1 → j ≠ hole → j / 2 ≠ hole → a j ≤ a (j / 2)) →
    (2 ≤ hole → ∀ j, 2 ≤ j → j ≤ m - 1 → j / 2 = hole → a j ≤ a (hole / 2)) →
    (2 ≤ hole → v ≤ a (hole / 2)) →
    isHeap (siftDown a v hole m) (m - 1) := by
  intro a v hole m
  induction a, v, hole, m using siftDown.induct with
  | case1 a v hole m hbreak =>
    intro h1 hm hD1 hD2 hD3
    rw [siftDown, if_pos hbreak]
    have hbreak' : m ≤ dchild a hole m ∨ a (dchild a hole m) ≤ v := by
      rcases hbreak with h | h | h
      · omega
      · exact Or.inl h
      · exact Or.inr h
    intro j hj2 hjm
    by_cases hje : j = hole
    · subst hje
      have hne : j / 2 ≠ j := by omega
      rw [updN_same, updN_other _ _ hne]
      exact hD3 (by omega)
    · by_cases hpar : j / 2 = hole
      · -- j is a child of hole; show a j ≤ v
        have hjch : j = 2 * hole ∨ j = 2 * hole + 1 := by omega
        have hjv : a j ≤ v := by
          rcases dchild_cases a hole m with ⟨he, hlt, hcmp⟩ | ⟨he, himp⟩
          · rcases hbreak' with h | h
            · omega
            · rcases hjch with hj | hj <;> rw [hj] <;> rw [he] at h <;> omega
          · rcases hbreak' with h | h
            · omega
            · rw [he] at h
              rcases hjch with hj | hj
              · rw [hj]; omega
              · rw [hj]
                have := himp (by omega)
                omega
        rw [updN_other _ _ hje, hpar, updN_same]
        exact hjv
      · rw [updN_other _ _ hje, updN_other _ _ hpar]
        exact hD1 j hj2 hjm hje hpar
  | case2 a v hole m hbreak ih =>
    intro h1 hm hD1 hD2 hD3
    rw [siftDown, if_neg hbreak]
    push_neg at hbreak
    obtain ⟨h0, hcm, hvc⟩ := hbreak
    have hc2 : 2 * hole ≤ dchild a hole m := dchild_ge a hole m
    have hcd2 : dchild a hole m / 2 = hole := dchild_div2 a hole m h1
    apply ih (by omega) hcm
    · -- (D1) for the updated array at the child position
      intro j hj2 hjm hjc hjpc
      by_cases hje : j = hole
      · -- the old hole now holds a c; bounded by its parent via (D2)
        have hh2 : 2 ≤ hole := by omega
        have hpp : hole / 2 ≠ hole := by omega
        rw [hje, updN_same, updN_other _ _ hpp]
        exact hD2 hh2 (dchild a hole m) (by omega) (by omega) hcd2
      · by_cases hpar : j / 2 = hole
        · -- sibling of the chosen child
          have hjch : j = 2 * hole ∨ j = 2 * hole + 1 := by omega
          have hjc' : a j ≤ a (dchild a hole m) := by
            rcases dchild_cases a hole m with ⟨he, hlt, hcmp⟩ | ⟨he, himp⟩
            · rcases hjch with hj | hj
              · rw [hj, he]; omega
              · rw [hj, he]
            · rcases hjch with hj | hj
              · rw [hj, he]
              · rw [hj, he]
                exact himp (by omega)
          rw [updN_other _ _ hje, hpar, updN_same]
          exact hjc'
        · rw [updN_other _ _ hje, updN_other _ _ hpar]
          exact hD1 j hj2 hjm hje hpar
    · -- (D2) at the child position
      intro hc2' j hj2 hjm hpar
      have hjne : j ≠ hole := by omega
      rw [updN_other _ _ hjne, hcd2, updN_same]
      have hjne2 : j / 2 ≠ hole := by omega
      have := hD1 j hj2 hjm hjne hjne2
      rw [hpar] at this
      exact this
    · -- (D3) at the child position
      intro _
      rw [hcd2, updN_same]
      exact le_of_lt hvc

/-- In a max-heap the root dominates every element. -/
theorem isHeap_le_root (a : ℕ → ℕ) (n : ℕ) (h : isHeap a n) :
    ∀ j, 1 ≤ j → j ≤ n → a j ≤ a 1 := by
  intro j
  induction j using Nat.strong_induction_on with
  | _ j ih =>
    intro hj1 hjn
    by_cases hj : j = 1
    · subst hj; exact le_rfl
    · have h2 : 2 ≤ j := by omega
      have hdiv : j / 2 < j := Nat.div_lt_self (by omega) (by omega)
      exact (h j h2 hjn).trans (ih _ hdiv (by omega) (by omega))

theorem mem_toList_bound (a : ℕ → ℕ) (n x : ℕ) (hx : x ∈ toList a n) :
    ∃ t, 1 ≤ t ∧ t ≤ n ∧ x = a t := by
  simp only [toList, List.mem_map, List.mem_range] at hx
  obtain ⟨t, ht, rfl⟩ := hx
  exact ⟨t + 1, by omega, by omega, rfl⟩

theorem drainFrom_spec (un : ℕ) : ∀ (hi : ℕ) (a : ℕ → ℕ), hi ≤ un → isHeap a hi →
    (∀ p q, hi < p → p ≤ q → q ≤ un → a p ≤ a q) →
    (∀ p q, 1 ≤ p → p ≤ hi → hi < q → q ≤ un → a p ≤ a q) →
    SortedOn (drainFrom a hi) un ∧
      List.Perm (toList (drainFrom a hi) un) (toList a un) ∧
      (∀ j, j = 0 ∨ un < j → drainFrom a hi j = a j) := by
  intro hi
  induction hi using Nat.strong_induction_on with
  | _ hi ih =>
    intro a hiun hheap hI2 hI3
    by_cases hbase : hi ≤ 1
    · rw [drainFrom, if_pos hbase]
      refine ⟨?_, List.Perm.refl _, fun _ _ => rfl⟩
      intro p q hp1 hpq hqun
      by_cases hpq' : p = q
      · subst hpq'; exact le_rfl
      · by_cases hhp : hi < p
        · exact hI2 p q hhp hpq hqun
        · exact hI3 p q hp1 (by omega) (by omega) hqun
    · rw [drainFrom, if_neg hbase]
      push_neg at hbase
      -- a1 = array with the old root saved at position hi; a2 = after sift-down
      set a1 := updN a hi (a 1) with ha1
      set a2 := siftDown a1 (a hi) 1 hi with ha2
      have hroot : ∀ j, 1 ≤ j → j ≤ hi → a j ≤ a 1 := isHeap_le_root a hi hheap
      have ha2frame : ∀ j, j = 0 ∨ hi ≤ j → a2 j = a1 j := by
        intro j hj
        exact siftDown_frame a1 (a hi) 1 hi (by omega) (by omega) j hj
      have ha2hi : a2 hi = a 1 := by
        rw [ha2frame hi (Or.inr le_rfl), ha1, updN_same]
      have ha2gt : ∀ j, hi < j → a2 j = a j := by
        intro j hj
        rw [ha2frame j (Or.inr (by omega)), ha1, updN_other _ _ (by omega)]
      have ha2heap : isHeap a2 (hi - 1) := by
        apply siftDown_heap a1 (a hi) 1 hi (by omega) (by omega)
        · intro j hj2 hjm hjne hjpar
          rw [ha1, updN_other _ _ (by omega), updN_other _ _ (by omega)]
          exact hheap j hj2 (by omega)
        · omega
        · omega
      have ha2perm : toList a2 (hi - 1) |>.Perm (toList (updN a1 1 (a hi)) (hi - 1)) := by
        exact siftDown_perm a1 (a hi) 1 hi (hi - 1) le_rfl (by omega) le_rfl
      -- every element of a2 on [1, hi-1] is at most a 1
      have ha2le : ∀ p, 1 ≤ p → p ≤ hi - 1 → a2 p ≤ a 1 := by
        intro p hp1 hp
        have hmem : a2 p ∈ toList a2 (hi - 1) := by
          simp only [toList, List.mem_map, List.mem_range]
          exact ⟨p - 1, by omega, by rw [Nat.sub_add_cancel hp1]⟩
        have hmem' := ha2perm.mem_iff.mp hmem
        obtain ⟨t, ht1, hthi, hteq⟩ := mem_toList_bound _ _ _ hmem'
        rw [hteq]
        by_cases ht : t = 1
        · subst ht
          rw [updN_same]
          exact hroot hi (by omega) le_rfl
        · rw [updN_other _ _ ht, ha1, updN_other _ _ (by omega)]
          exact hroot t ht1 (by omega)
      have hI2' : ∀ p q, hi - 1 < p → p ≤ q → q ≤ un → a2 p ≤ a2 q := by
        intro p q hp hpq hq
        have hp' : hi ≤ p := by omega
        rcases Nat.eq_or_lt_of_le hp' with hep | hltp
        · rcases Nat.eq_or_lt_of_le hpq with heq | hltq
          · rw [heq]
          · rw [← hep, ha2hi, ha2gt q (by omega)]
            exact hI3 1 q le_rfl (by omega) (by omega) hq
        · rw [ha2gt p hltp, ha2gt q (by omega)]
          exact hI2 p q hltp hpq hq
      have hI3' : ∀ p q, 1 ≤ p → p ≤ hi - 1 → hi - 1 < q → q ≤ un → a2 p ≤ a2 q := by
        intro p q hp1 hp hq hqun
        have hle1 : a2 p ≤ a 1 := ha2le p hp1 hp
        have hq' : hi ≤ q := by omega
        rcases Nat.eq_or_lt_of_le hq' with heq | hlt
        · rw [← heq, ha2hi]; exact hle1
        · rw [ha2gt q hlt]
          exact hle1.trans (hI3 1 q le_rfl (by omega) hlt hqun)
      obtain ⟨hs, hp, hf⟩ := ih (hi - 1) (by omega) a2 (by omega) ha2heap hI2' hI3'
      refine ⟨hs, ?_, ?_⟩
      · refine hp.trans ?_
        have hstep : toList a2 un |>.Perm (toList (updN a1 1 (a hi)) un) :=
          siftDown_perm a1 (a hi) 1 hi un le_rfl (by omega) (by omega)
        refine hstep.trans ?_
        -- updN a1 1 (a hi) is the swap of positions 1 and hi of a
        have hswap := toList_swap_perm a (a 1) (a hi) un (i := hi) (j := 1)
          (by omega) (by omega) (by omega) (by omega) (by omega)
        refine hswap.trans ?_
        apply List.Perm.of_eq
        apply toList_congrOn
        intro j hj1 hjun
        by_cases hj1' : j = 1
        · rw [hj1', updN_same]
        · rw [updN_other _ _ hj1']
          by_cases hjhi : j = hi
          · rw [hjhi, updN_same]
          · rw [updN_other _ _ hjhi]
      · intro j hj
        rw [hf j hj, ha2frame j (by omega), ha1, updN_other _ _ (by omega)]

theorem sortedOn_toList (a : ℕ → ℕ) (n : ℕ) (h : SortedOn a n) :
    (toList a n).Sorted (· ≤ ·) := by
  rw [List.Sorted, List.pairwise_iff_getElem]
  intro i j hi hj hij
  have hi' : i < n := by simpa [toList] using hi
  have hj' : j < n := by simpa [toList] using hj
  rw [toList_getElem _ _ _ hi', toList_getElem _ _ _ hj']
  exact h (i + 1) (j + 1) (by omega) (by omega) (by omega)

theorem toList_shift (uv : ℕ → ℕ) (un : ℕ) :
    toList (fun i => uv (i - 1)) un = (List.range un).map uv := by
  apply List.ext_getElem
  · simp [toList]
  · intro t ht _
    have ht' : t < un := by simpa [toList] using ht
    rw [toList_getElem _ _ _ ht']
    simp

/-- The output of `heap_sort` on positions `0..un` as a list equals the
`toList` of the internal 1-based heap after build and drain. -/
theorem heap_sort_toList (un : ℕ) (uv : ℕ → ℕ) :
    (List.range un).map (heap_sort un uv) =
      toList (drainFrom (buildFrom (fun i => uv (i - 1)) 2 un) un) un := by
  apply List.ext_getElem
  · simp [toList]
  · intro t ht _
    have ht' : t < un := by simpa using ht
    rw [toList_getElem _ _ _ ht']
    simp [heap_sort]

theorem heap_sort_perm (un : ℕ) (uv : ℕ → ℕ) :
    List.Perm ((List.range un).map (heap_sort un uv)) ((List.range un).map uv) := by
  rw [heap_sort_toList]
  have hheap : isHeap (buildFrom (fun i => uv (i - 1)) 2 un) un := by
    apply buildFrom_heap _ _ _ le_rfl
    intro j hj2 hj1
    omega
  obtain ⟨_, hperm, _⟩ := drainFrom_spec un un (buildFrom (fun i => uv (i - 1)) 2 un)
    le_rfl hheap (fun p q hp _ hq => by omega) (fun p q _ _ hq hq' => by omega)
  refine hperm.trans ?_
  refine (buildFrom_perm (fun i => uv (i - 1)) 2 un (by omega)).trans ?_
  rw [toList_shift]

theorem heap_sort_sorted (un : ℕ) (uv : ℕ → ℕ) :
    ((List.range un).map (heap_sort un uv)).Sorted (· ≤ ·) := by
  rw [heap_sort_toList]
  apply sortedOn_toList
  have hheap : isHeap (buildFrom (fun i => uv (i - 1)) 2 un) un := by
    apply buildFrom_heap _ _ _ le_rfl
    intro j hj2 hj1
    omega
  obtain ⟨hsort, _, _⟩ := drainFrom_spec un un (buildFrom (fun i => uv (i - 1)) 2 un)
    le_rfl hheap (fun p q hp _ hq => by omega) (fun p q _ _ hq hq' => by omega)
  exact hsort

theorem heap_sort_small (un : ℕ) (uv : ℕ → ℕ) (h : un ≤ 1) :
    heap_sort un uv = uv := by
  funext t
  unfold heap_sort
  rw [buildFrom, if_pos (by omega), drainFrom, if_pos h]
  simp

theorem heap_sort_list_perm (l : List ℕ) : List.Perm (heap_sort_list l) l := by
  have hbase : (List.range l.length).map (fun t => l.getD t 0) = l := by
    apply List.ext_getElem
    · simp
    · intro t ht _
      have ht' : t < l.length := by simpa using ht
      simp [List.getD, List.getElem?_eq_getElem ht']
  have hperm := heap_sort_perm l.length (fun t => l.getD t 0)
  rw [hbase] at hperm
  simpa [heap_sort_list] using hperm

theorem heap_sort_list_sorted (l : List ℕ) : (heap_sort_list l).Sorted (· ≤ ·) :=
  heap_sort_sorted l.length (fun t => l.getD t 0)

theorem heap_sort_list_strict (l : List ℕ) (h : l.Nodup) :
    (heap_sort_list l).Sorted (· < ·) := by
  have hnd : (heap_sort_list l).Nodup := ((heap_sort_list_perm l).nodup_iff).mpr h
  have hs := heap_sort_list_sorted l
  rw [List.Sorted, List.pairwise_iff_getElem] at hs ⊢
  intro i j hi hj hij
  refine lt_of_le_of_ne (hs i j hi hj hij) ?_
  intro heq
  exact absurd (List.Nodup.getElem_inj_iff hnd |>.mp heq) (by omega)

theorem ascPairs_head_lt {i : ℕ} {v : ℚ} {t : List (ℕ × ℚ)}
    (h : ascPairs ((i, v) :: t)) : ∀ p ∈ t, i < p.1 :=
  (List.pairwise_cons.mp h).1

theorem ascPairs_tail {i : ℕ} {v : ℚ} {t : List (ℕ × ℚ)}
    (h : ascPairs ((i, v) :: t)) : ascPairs t :=
  (List.pairwise_cons.mp h).2

theorem ascPairs_head_notmem {i : ℕ} {v : ℚ} {t : List (ℕ × ℚ)}
    (h : ascPairs ((i, v) :: t)) : i ∉ t.map Prod.fst := by
  intro hmem
  obtain ⟨p, hp, hpe⟩ := List.mem_map.mp hmem
  exact absurd (ascPairs_head_lt h p hp) (by omega)

theorem ascPairs_mem_ge {i : ℕ} {v : ℚ} {t : List (ℕ × ℚ)}
    (h : ascPairs ((i, v) :: t)) : ∀ j, j ∈ ((i, v) :: t).map Prod.fst → i ≤ j := by
  intro j hj
  rcases List.mem_map.mp hj with ⟨p, hp, rfl⟩
  rcases List.mem_cons.mp hp with rfl | hp'
  · exact le_rfl
  · exact le_of_lt (ascPairs_head_lt h p hp')

theorem ascPairs_head_mem_eq {i : ℕ} {v w : ℚ} {t : List (ℕ × ℚ)}
    (h : ascPairs ((i, v) :: t)) (hmem : (i, w) ∈ (i, v) :: t) : w = v := by
  rcases List.mem_cons.mp hmem with he | hmem'
  · exact (Prod.mk.injEq _ _ _ _ ▸ he).2
  · exact absurd (ascPairs_head_lt h _ hmem') (by omega)

theorem resid_update_beta (mask : ℕ → ℤ) (alpha : ℚ) :
    ∀ (x y : List (ℕ × ℚ)) (beta : ℕ → ℚ), ascPairs x → ascPairs y →
    ((∀ i yv, (i, yv) ∈ y →
        (resid_update mask alpha x y beta).2.2 i =
          if i ∈ x.map Prod.fst then beta i + yv * yv else yv * yv)
      ∧ (∀ i, i ∉ y.map Prod.fst →
          (resid_update mask alpha x y beta).2.2 i = beta i)) := by
  suffices H : ∀ (n : ℕ) (x y : List (ℕ × ℚ)) (beta : ℕ → ℚ),
      x.length + y.length ≤ n → ascPairs x → ascPairs y →
      ((∀ i yv, (i, yv) ∈ y →
          (resid_update mask alpha x y beta).2.2 i =
            if i ∈ x.map Prod.fst then beta i + yv * yv else yv * yv)
        ∧ (∀ i, i ∉ y.map Prod.fst →
            (resid_update mask alpha x y beta).2.2 i = beta i)) by
    exact fun x y beta hx hy => H (x.length + y.length) x y beta le_rfl hx hy
  intro n
  induction n with
  | zero =>
    intro x y beta hlen hx hy
    rcases x with _ | ⟨⟨ix, xv⟩, xs⟩ <;> rcases y with _ | ⟨⟨iy, yv⟩, ys⟩ <;>
      simp at hlen
    exact ⟨fun i yv h => absurd h (List.not_mem_nil _), fun i _ => by
      simp [resid_update]⟩
  | succ n ih =>
    intro x y beta hlen hx hy
    rcases x with _ | ⟨⟨ix, xv⟩, xs⟩
    · rcases y with _ | ⟨⟨iy, yv⟩, ys⟩
      · exact ⟨fun i yv h => absurd h (List.not_mem_nil _), fun i _ => by
          simp [resid_update]⟩
      · -- flush of y
        have hproj : (resid_update mask alpha [] ((iy, yv) :: ys) beta).2.2 =
            (resid_update mask alpha [] ys (updQ beta iy (yv * yv))).2.2 := by
          simp only [resid_update]
          split <;> rfl
        obtain ⟨ih1, ih2⟩ := ih [] ys (updQ beta iy (yv * yv))
          (by simp at hlen ⊢; omega) hx (ascPairs_tail hy)
        constructor
        · intro i w hw
          rw [hproj]
          rcases List.mem_cons.mp hw with he | hmem
          · obtain ⟨rfl, rfl⟩ : i = iy ∧ w = yv := by
              simpa using he
            rw [ih2 i (ascPairs_head_notmem hy)]
            simp [updQ]
          · rw [ih1 i w hmem]
            simp
        · intro i hi
          rw [hproj, ih2 i (by simp at hi ⊢; tauto)]
          have : i ≠ iy := by simp at hi; tauto
          simp [updQ, this]
    · rcases y with _ | ⟨⟨iy, yv⟩, ys⟩
      · -- flush of x : beta untouched
        have hproj : (resid_update mask alpha ((ix, xv) :: xs) [] beta).2.2 =
            (resid_update mask alpha xs [] beta).2.2 := by
          simp only [resid_update]
          split <;> rfl
        obtain ⟨_, ih2⟩ := ih xs [] beta (by simp at hlen ⊢; omega)
          (ascPairs_tail hx) hy
        refine ⟨fun i w h => absurd h (List.not_mem_nil _), fun i _ => ?_⟩
        rw [hproj, ih2 i (List.not_mem_nil _)]
      · by_cases hc1 : ix < iy
        · -- merge step: emit from x, advance x only
          have hproj : (resid_update mask alpha ((ix, xv) :: xs) ((iy, yv) :: ys) beta).2.2 =
              (resid_update mask alpha xs ((iy, yv) :: ys) beta).2.2 := by
            simp only [resid_update, if_pos hc1]
            split <;> rfl
          obtain ⟨ih1, ih2⟩ := ih xs ((iy, yv) :: ys) beta
            (by simp at hlen ⊢; omega) (ascPairs_tail hx) hy
          constructor
          · intro i w hw
            rw [hproj, ih1 i w hw]
            have hiy : iy ≤ i := by
              have := ascPairs_mem_ge hy i (List.mem_map.mpr ⟨(i, w), hw, rfl⟩)
              exact this
            have hne : i ≠ ix := by omega
            simp only [List.map_cons, List.mem_cons]
            by_cases him : i ∈ List.map Prod.fst xs
            · rw [if_pos him, if_pos (Or.inr him)]
            · rw [if_neg him, if_neg (by tauto)]
          · intro i hi
            rw [hproj, ih2 i hi]
        · by_cases hc2 : iy < ix
          · -- merge step: advance y only, beta[iy] := yv^2
            have hproj : (resid_update mask alpha ((ix, xv) :: xs) ((iy, yv) :: ys) beta).2.2 =
                (resid_update mask alpha ((ix, xv) :: xs) ys
                  (updQ beta iy (yv * yv))).2.2 := by
              simp only [resid_update, if_neg hc1, if_pos hc2]
              split <;> rfl
            obtain ⟨ih1, ih2⟩ := ih ((ix, xv) :: xs) ys (updQ beta iy (yv * yv))
              (by simp at hlen ⊢; omega) hx (ascPairs_tail hy)
            constructor
            · intro i w hw
              rw [hproj]
              rcases List.mem_cons.mp hw with he | hmem
              · obtain ⟨rfl, rfl⟩ : i = iy ∧ w = yv := by simpa using he
                rw [ih2 i (ascPairs_head_notmem hy)]
                have hnotx : i ∉ ((ix, xv) :: xs).map Prod.fst := by
                  intro hmem'
                  have := ascPairs_mem_ge hx i hmem'
                  omega
                have hnotx' : i ∉ ix :: xs.map Prod.fst := by simpa using hnotx
                simp [updQ, hnotx']
              · have hgt : iy < i := ascPairs_head_lt hy _ hmem
                rw [ih1 i w hmem]
                have : i ≠ iy := by omega
                simp [updQ, this]
            · intro i hi
              have hiy : i ≠ iy := by simp at hi; tauto
              rw [hproj, ih2 i (by simp at hi ⊢; tauto)]
              simp [updQ, hiy]
          · -- merge step: ix = iy, both advance, beta[iy] += yv^2
            have hee : ix = iy := by omega
            have hproj : (resid_update mask alpha ((ix, xv) :: xs) ((iy, yv) :: ys) beta).2.2 =
                (resid_update mask alpha xs ys
                  (updQ beta iy (beta iy + yv * yv))).2.2 := by
              simp only [resid_update, if_neg hc1, if_neg hc2]
              split <;> rfl
            obtain ⟨ih1, ih2⟩ := ih xs ys (updQ beta iy (beta iy + yv * yv))
              (by simp at hlen ⊢; omega) (ascPairs_tail hx) (ascPairs_tail hy)
            constructor
            · intro i w hw
              rw [hproj]
              rcases List.mem_cons.mp hw with he | hmem
              · obtain ⟨rfl, rfl⟩ : i = iy ∧ w = yv := by simpa using he
                rw [ih2 i (ascPairs_head_notmem hy)]
                have hinx : i ∈ ix :: xs.map Prod.fst := by simp [hee]
                simp [updQ, hinx]
              · have hgt : iy < i := ascPairs_head_lt hy _ hmem
                rw [ih1 i w hmem]
                have hine : i ≠ iy := by omega
                have hinx : i ≠ ix := by omega
                rw [updQ_other _ _ hine]
                simp only [List.map_cons, List.mem_cons]
                by_cases him : i ∈ List.map Prod.fst xs
                · rw [if_pos him, if_pos (Or.inr him)]
                · rw [if_neg him, if_neg (by tauto)]
            · intro i hi
              have hiy : i ≠ iy := by simp at hi; tauto
              rw [hproj, ih2 i (by simp at hi ⊢; tauto)]
              simp [updQ, hiy]

theorem resid_update_count (mask : ℕ → ℤ) (alpha : ℚ) :
    ∀ (x y : List (ℕ × ℚ)) (beta : ℕ → ℚ),
      (resid_update mask alpha x y beta).1 =
        (resid_update mask alpha x y beta).2.1.length := by
  suffices H : ∀ (n : ℕ) (x y : List (ℕ × ℚ)) (beta : ℕ → ℚ),
      x.length + y.length ≤ n →
      (resid_update mask alpha x y beta).1 =
        (resid_update mask alpha x y beta).2.1.length by
    exact fun x y beta => H (x.length + y.length) x y beta le_rfl
  intro n
  induction n with
  | zero =>
    intro x y beta hlen
    rcases x with _ | ⟨⟨ix, xv⟩, xs⟩ <;> rcases y with _ | ⟨⟨iy, yv⟩, ys⟩ <;>
      simp at hlen <;> simp [resid_update]
  | succ n ih =>
    intro x y beta hlen
    rcases x with _ | ⟨⟨ix, xv⟩, xs⟩
    · rcases y with _ | ⟨⟨iy, yv⟩, ys⟩
      · simp [resid_update]
      · have := ih [] ys (updQ beta iy (yv * yv)) (by simp at hlen ⊢; omega)
        simp only [resid_update]
        split <;> simp [this]
    · rcases y with _ | ⟨⟨iy, yv⟩, ys⟩
      · have := ih xs [] beta (by simp at hlen ⊢; omega)
        simp only [resid_update]
        split <;> simp [this]
      · by_cases hc1 : ix < iy
        · have := ih xs ((iy, yv) :: ys) beta (by simp at hlen ⊢; omega)
          simp only [resid_update, if_pos hc1]
          split <;> simp [this]
        · by_cases hc2 : iy < ix
          · have := ih ((ix, xv) :: xs) ys (updQ beta iy (yv * yv))
              (by simp at hlen ⊢; omega)
            simp only [resid_update, if_neg hc1, if_pos hc2]
            split <;> simp [this]
          · have := ih xs ys (updQ beta iy (beta iy + yv * yv))
              (by simp at hlen ⊢; omega)
            simp only [resid_update, if_neg hc1, if_neg hc2]
            split <;> simp [this]

theorem resid_update_r_shape (mask : ℕ → ℤ) (alpha : ℚ) :
    ∀ (x y : List (ℕ × ℚ)) (beta : ℕ → ℚ),
      ∀ p ∈ (resid_update mask alpha x y beta).2.1,
        mask p.1 < 0 ∧ (p.1 ∈ x.map Prod.fst ∨ p.1 ∈ y.map Prod.fst) := by
  suffices H : ∀ (n : ℕ) (x y : List (ℕ × ℚ)) (beta : ℕ → ℚ),
      x.length + y.length ≤ n →
      ∀ p ∈ (resid_update mask alpha x y beta).2.1,
        mask p.1 < 0 ∧ (p.1 ∈ x.map Prod.fst ∨ p.1 ∈ y.map Prod.fst) by
    exact fun x y beta => H (x.length + y.length) x y beta le_rfl
  intro n
  induction n with
  | zero =>
    intro x y beta hlen p hp
    rcases x with _ | ⟨⟨ix, xv⟩, xs⟩ <;> rcases y with _ | ⟨⟨iy, yv⟩, ys⟩ <;>
      simp at hlen <;> simp [resid_update] at hp
  | succ n ih =>
    intro x y beta hlen p hp
    rcases x with _ | ⟨⟨ix, xv⟩, xs⟩
    · rcases y with _ | ⟨⟨iy, yv⟩, ys⟩
      · simp [resid_update] at hp
      · simp only [resid_update] at hp
        have hrec := ih [] ys (updQ beta iy (yv * yv)) (by simp at hlen ⊢; omega)
        by_cases hm : mask iy < 0
        · rw [if_pos hm] at hp
          simp only [List.mem_cons] at hp
          rcases hp with rfl | hp
          · exact ⟨hm, Or.inr (by simp)⟩
          · obtain ⟨h1, h2⟩ := hrec p hp
            refine ⟨h1, ?_⟩
            rcases h2 with h | h
            · simp at h
            · exact Or.inr (by simp; right; simpa using h)
        · rw [if_neg hm] at hp
          obtain ⟨h1, h2⟩ := hrec p hp
          refine ⟨h1, ?_⟩
          rcases h2 with h | h
          · simp at h
          · exact Or.inr (by simp; right; simpa using h)
    · rcases y with _ | ⟨⟨iy, yv⟩, ys⟩
      · simp only [resid_update] at hp
        have hrec := ih xs [] beta (by simp at hlen ⊢; omega)
        by_cases hm : mask ix < 0
        · rw [if_pos hm] at hp
          simp only [List.mem_cons] at hp
          rcases hp with rfl | hp
          · exact ⟨hm, Or.inl (by simp)⟩
          · obtain ⟨h1, h2⟩ := hrec p hp
            refine ⟨h1, ?_⟩
            rcases h2 with h | h
            · exact Or.inl (by simp; right; simpa using h)
            · simp at h
        · rw [if_neg hm] at hp
          obtain ⟨h1, h2⟩ := hrec p hp
          refine ⟨h1, ?_⟩
          rcases h2 with h | h
          · exact Or.inl (by simp; right; simpa using h)
          · simp at h
      · by_cases hc1 : ix < iy
        · simp only [resid_update, if_pos hc1] at hp
          have hrec := ih xs ((iy, yv) :: ys) beta (by simp at hlen ⊢; omega)
          by_cases hm : mask ix < 0
          · rw [if_pos hm] at hp
            simp only [List.mem_cons] at hp
            rcases hp with rfl | hp
            · exact ⟨hm, Or.inl (by simp)⟩
            · obtain ⟨h1, h2⟩ := hrec p hp
              refine ⟨h1, ?_⟩
              rcases h2 with h | h
              · exact Or.inl (by simp; right; simpa using h)
              · exact Or.inr h
          · rw [if_neg hm] at hp
            obtain ⟨h1, h2⟩ := hrec p hp
            refine ⟨h1, ?_⟩
            rcases h2 with h | h
            · exact Or.inl (by simp; right; simpa using h)
            · exact Or.inr h
        · by_cases hc2 : iy < ix
          · simp only [resid_update, if_neg hc1, if_pos hc2] at hp
            have hrec := ih ((ix, xv) :: xs) ys (updQ beta iy (yv * yv))
              (by simp at hlen ⊢; omega)
            by_cases hm : mask iy < 0
            · rw [if_pos hm] at hp
              simp only [List.mem_cons] at hp
              rcases hp with rfl | hp
              · exact ⟨hm, Or.inr (by simp)⟩
              · obtain ⟨h1, h2⟩ := hrec p hp
                refine ⟨h1, ?_⟩
                rcases h2 with h | h
                · exact Or.inl h
                · exact Or.inr (by simp; right; simpa using h)
            · rw [if_neg hm] at hp
              obtain ⟨h1, h2⟩ := hrec p hp
              refine ⟨h1, ?_⟩
              rcases h2 with h | h
              · exact Or.inl h
              · exact Or.inr (by simp; right; simpa using h)
          · simp only [resid_update, if_neg hc1, if_neg hc2] at hp
            have hrec := ih xs ys (updQ beta iy (beta iy + yv * yv))
              (by simp at hlen ⊢; omega)
            by_cases hm : mask iy < 0
            · rw [if_pos hm] at hp
              simp only [List.mem_cons] at hp
              rcases hp with rfl | hp
              · exact ⟨hm, Or.inr (by simp)⟩
              · obtain ⟨h1, h2⟩ := hrec p hp
                refine ⟨h1, ?_⟩
                rcases h2 with h | h
                · exact Or.inl (by simp; right; simpa using h)
                · exact Or.inr (by simp; right; simpa using h)
            · rw [if_neg hm] at hp
              obtain ⟨h1, h2⟩ := hrec p hp
              refine ⟨h1, ?_⟩
              rcases h2 with h | h
              · exact Or.inl (by simp; right; simpa using h)
              · exact Or.inr (by simp; right; simpa using h)

theorem ascPairs_cons_of {i0 : ℕ} {v0 : ℚ} {t : List (ℕ × ℚ)}
    (ht : ascPairs t) (hb : ∀ p ∈ t, i0 < p.1) : ascPairs ((i0, v0) :: t) :=
  List.pairwise_cons.mpr ⟨hb, ht⟩

theorem mem_map_fst_lt {l : List (ℕ × ℚ)} {i0 : ℕ} {v0 : ℚ} {j : ℕ}
    (h : ascPairs ((i0, v0) :: l)) (hj : j ∈ l.map Prod.fst) : i0 < j := by
  obtain ⟨q, hq, rfl⟩ := List.mem_map.mp hj
  exact ascPairs_head_lt h q hq

theorem resid_update_sorted (mask : ℕ → ℤ) (alpha : ℚ) :
    ∀ (x y : List (ℕ × ℚ)) (beta : ℕ → ℚ), ascPairs x → ascPairs y →
      ascPairs (resid_update mask alpha x y beta).2.1 := by
  suffices H : ∀ (n : ℕ) (x y : List (ℕ × ℚ)) (beta : ℕ → ℚ),
      x.length + y.length ≤ n → ascPairs x → ascPairs y →
      ascPairs (resid_update mask alpha x y beta).2.1 by
    exact fun x y beta => H (x.length + y.length) x y beta le_rfl
  intro n
  induction n with
  | zero =>
    intro x y beta hlen hx hy
    rcases x with _ | ⟨⟨ix, xv⟩, xs⟩ <;> rcases y with _ | ⟨⟨iy, yv⟩, ys⟩ <;>
      simp at hlen <;> simp [resid_update, ascPairs]
  | succ n ih =>
    intro x y beta hlen hx hy
    rcases x with _ | ⟨⟨ix, xv⟩, xs⟩
    · rcases y with _ | ⟨⟨iy, yv⟩, ys⟩
      · simp [resid_update, ascPairs]
      · have hrec := ih [] ys (updQ beta iy (yv * yv)) (by simp at hlen ⊢; omega)
          hx (ascPairs_tail hy)
        have hbnd : ∀ p ∈ (resid_update mask alpha [] ys
            (updQ beta iy (yv * yv))).2.1, iy < p.1 := by
          intro p hp
          rcases (resid_update_r_shape mask alpha [] ys _ p hp).2 with h | h
          · simp at h
          · exact mem_map_fst_lt hy h
        simp only [resid_update]
        split
        · exact ascPairs_cons_of hrec hbnd
        · exact hrec
    · rcases y with _ | ⟨⟨iy, yv⟩, ys⟩
      · have hrec := ih xs [] beta (by simp at hlen ⊢; omega) (ascPairs_tail hx) hy
        have hbnd : ∀ p ∈ (resid_update mask alpha xs [] beta).2.1, ix < p.1 := by
          intro p hp
          rcases (resid_update_r_shape mask alpha xs [] _ p hp).2 with h | h
          · exact mem_map_fst_lt hx h
          · simp at h
        simp only [resid_update]
        split
        · exact ascPairs_cons_of hrec hbnd
        · exact hrec
      · by_cases hc1 : ix < iy
        · have hrec := ih xs ((iy, yv) :: ys) beta (by simp at hlen ⊢; omega)
            (ascPairs_tail hx) hy
          have hbnd : ∀ p ∈ (resid_update mask alpha xs ((iy, yv) :: ys) beta).2.1,
              ix < p.1 := by
            intro p hp
            rcases (resid_update_r_shape mask alpha xs _ _ p hp).2 with h | h
            · exact mem_map_fst_lt hx h
            · have := ascPairs_mem_ge hy p.1 h
              omega
          simp only [resid_update, if_pos hc1]
          split
          · exact ascPairs_cons_of hrec hbnd
          · exact hrec
        · by_cases hc2 : iy < ix
          · have hrec := ih ((ix, xv) :: xs) ys (updQ beta iy (yv * yv))
              (by simp at hlen ⊢; omega) hx (ascPairs_tail hy)
            have hbnd : ∀ p ∈ (resid_update mask alpha ((ix, xv) :: xs) ys
                (updQ beta iy (yv * yv))).2.1, iy < p.1 := by
              intro p hp
              rcases (resid_update_r_shape mask alpha _ ys _ p hp).2 with h | h
              · have := ascPairs_mem_ge hx p.1 h
                omega
              · exact mem_map_fst_lt hy h
            simp only [resid_update, if_neg hc1, if_pos hc2]
            split
            · exact ascPairs_cons_of hrec hbnd
            · exact hrec
          · have hrec := ih xs ys (updQ beta iy (beta iy + yv * yv))
              (by simp at hlen ⊢; omega) (ascPairs_tail hx) (ascPairs_tail hy)
            have hbnd : ∀ p ∈ (resid_update mask alpha xs ys
                (updQ beta iy (beta iy + yv * yv))).2.1, iy < p.1 := by
              intro p hp
              rcases (resid_update_r_shape mask alpha xs ys _ p hp).2 with h | h
              · have := mem_map_fst_lt hx h
                omega
              · exact mem_map_fst_lt hy h
            simp only [resid_update, if_neg hc1, if_neg hc2]
            split
            · exact ascPairs_cons_of hrec hbnd
            · exact hrec

theorem mem_ite_cons {p q : ℕ × ℚ} {rec : List (ℕ × ℚ)} {c : Prop} [Decidable c]
    (h : p ∈ rec) : p ∈ (if c then q :: rec else rec) := by
  split
  · exact List.mem_cons_of_mem _ h
  · exact h

theorem resid_update_mem (mask : ℕ → ℤ) (alpha : ℚ) :
    ∀ (x y : List (ℕ × ℚ)) (beta : ℕ → ℚ), ascPairs x → ascPairs y →
    ((∀ i xv yv, (i, xv) ∈ x → (i, yv) ∈ y → mask i < 0 →
        (i, xv - alpha * yv) ∈ (resid_update mask alpha x y beta).2.1)
      ∧ (∀ i xv, (i, xv) ∈ x → i ∉ y.map Prod.fst → mask i < 0 →
          (i, xv) ∈ (resid_update mask alpha x y beta).2.1)
      ∧ (∀ i yv, (i, yv) ∈ y → i ∉ x.map Prod.fst → mask i < 0 →
          (i, -alpha * yv) ∈ (resid_update mask alpha x y beta).2.1)) := by
  suffices H : ∀ (n : ℕ) (x y : List (ℕ × ℚ)) (beta : ℕ → ℚ),
      x.length + y.length ≤ n → ascPairs x → ascPairs y →
      ((∀ i xv yv, (i, xv) ∈ x → (i, yv) ∈ y → mask i < 0 →
          (i, xv - alpha * yv) ∈ (resid_update mask alpha x y beta).2.1)
        ∧ (∀ i xv, (i, xv) ∈ x → i ∉ y.map Prod.fst → mask i < 0 →
            (i, xv) ∈ (resid_update mask alpha x y beta).2.1)
        ∧ (∀ i yv, (i, yv) ∈ y → i ∉ x.map Prod.fst → mask i < 0 →
            (i, -alpha * yv) ∈ (resid_update mask alpha x y beta).2.1)) by
    exact fun x y beta => H (x.length + y.length) x y beta le_rfl
  intro n
  induction n with
  | zero =>
    intro x y beta hlen hx hy
    rcases x with _ | ⟨⟨ix, xv⟩, xs⟩ <;> rcases y with _ | ⟨⟨iy, yv⟩, ys⟩ <;>
      simp at hlen
    exact ⟨fun i xv yv h => absurd h (List.not_mem_nil _),
      fun i xv h => absurd h (List.not_mem_nil _),
      fun i yv h => absurd h (List.not_mem_nil _)⟩
  | succ n ih =>
    intro x y beta hlen hx hy
    rcases x with _ | ⟨⟨ix, xv⟩, xs⟩
    · rcases y with _ | ⟨⟨iy, yv⟩, ys⟩
      · exact ⟨fun i xv yv h => absurd h (List.not_mem_nil _),
          fun i xv h => absurd h (List.not_mem_nil _),
          fun i yv h => absurd h (List.not_mem_nil _)⟩
      · have hproj : (resid_update mask alpha [] ((iy, yv) :: ys) beta).2.1 =
            (if mask iy < 0 then
              (iy, -alpha * yv) ::
                (resid_update mask alpha [] ys (updQ beta iy (yv * yv))).2.1
            else (resid_update mask alpha [] ys (updQ beta iy (yv * yv))).2.1) := by
          simp only [resid_update]
          split <;> rfl
        obtain ⟨_, _, ihc⟩ := ih [] ys (updQ beta iy (yv * yv))
          (by simp at hlen ⊢; omega) hx (ascPairs_tail hy)
        refine ⟨fun i xv yv h => absurd h (List.not_mem_nil _),
          fun i xv h => absurd h (List.not_mem_nil _), ?_⟩
        intro i w hw _ hm
        rw [hproj]
        rcases List.mem_cons.mp hw with he | hmem
        · obtain ⟨rfl, rfl⟩ : i = iy ∧ w = yv := by simpa using he
          rw [if_pos hm]
          exact List.mem_cons_self _ _
        · exact mem_ite_cons (ihc i w hmem (by simp) hm)
    · rcases y with _ | ⟨⟨iy, yv⟩, ys⟩
      · have hproj : (resid_update mask alpha ((ix, xv) :: xs) [] beta).2.1 =
            (if mask ix < 0 then
              (ix, xv) :: (resid_update mask alpha xs [] beta).2.1
            else (resid_update mask alpha xs [] beta).2.1) := by
          simp only [resid_update]
          split <;> rfl
        obtain ⟨_, ihb, _⟩ := ih xs [] beta (by simp at hlen ⊢; omega)
          (ascPairs_tail hx) hy
        refine ⟨fun i xv yv _ h => absurd h (List.not_mem_nil _), ?_,
          fun i yv h => absurd h (List.not_mem_nil _)⟩
        intro i w hw _ hm
        rw [hproj]
        rcases List.mem_cons.mp hw with he | hmem
        · obtain ⟨rfl, rfl⟩ : i = ix ∧ w = xv := by simpa using he
          rw [if_pos hm]
          exact List.mem_cons_self _ _
        · exact mem_ite_cons (ihb i w hmem (by simp) hm)
      · by_cases hc1 : ix < iy
        · have hproj : (resid_update mask alpha ((ix, xv) :: xs)
              ((iy, yv) :: ys) beta).2.1 =
              (if mask ix < 0 then
                (ix, xv) :: (resid_update mask alpha xs ((iy, yv) :: ys) beta).2.1
              else (resid_update mask alpha xs ((iy, yv) :: ys) beta).2.1) := by
            simp only [resid_update, if_pos hc1]
            split <;> rfl
          obtain ⟨iha, ihb, ihc⟩ := ih xs ((iy, yv) :: ys) beta
            (by simp at hlen ⊢; omega) (ascPairs_tail hx) hy
          refine ⟨?_, ?_, ?_⟩
          · intro i w v hwx hwy hm
            rw [hproj]
            have hge : iy ≤ i :=
              ascPairs_mem_ge hy i (List.mem_map.mpr ⟨(i, v), hwy, rfl⟩)
            have hne : i ≠ ix := by omega
            have hmem : (i, w) ∈ xs := by
              rcases List.mem_cons.mp hwx with he | hmem
              · have hpe : i = ix ∧ w = xv := by simpa using he
                exact absurd hpe.1 hne
              · exact hmem
            exact mem_ite_cons (iha i w v hmem hwy hm)
          · intro i w hwx hny hm
            rw [hproj]
            rcases List.mem_cons.mp hwx with he | hmem
            · obtain ⟨rfl, rfl⟩ : i = ix ∧ w = xv := by simpa using he
              rw [if_pos hm]
              exact List.mem_cons_self _ _
            · exact mem_ite_cons (ihb i w hmem hny hm)
          · intro i w hwy hnx hm
            rw [hproj]
            have hnx' : i ∉ xs.map Prod.fst := by
              intro hmem
              exact hnx (by simpa using Or.inr hmem)
            exact mem_ite_cons (ihc i w hwy hnx' hm)
        · by_cases hc2 : iy < ix
          · have hproj : (resid_update mask alpha ((ix, xv) :: xs)
                ((iy, yv) :: ys) beta).2.1 =
                (if mask iy < 0 then
                  (iy, -alpha * yv) :: (resid_update mask alpha ((ix, xv) :: xs) ys
                    (updQ beta iy (yv * yv))).2.1
                else (resid_update mask alpha ((ix, xv) :: xs) ys
                  (updQ beta iy (yv * yv))).2.1) := by
              simp only [resid_update, if_neg hc1, if_pos hc2]
              split <;> rfl
            obtain ⟨iha, ihb, ihc⟩ := ih ((ix, xv) :: xs) ys (updQ beta iy (yv * yv))
              (by simp at hlen ⊢; omega) hx (ascPairs_tail hy)
            refine ⟨?_, ?_, ?_⟩
            · intro i w v hwx hwy hm
              rw [hproj]
              have hge : ix ≤ i :=
                ascPairs_mem_ge hx i (List.mem_map.mpr ⟨(i, w), hwx, rfl⟩)
              have hne : i ≠ iy := by omega
              have hmem : (i, v) ∈ ys := by
                rcases List.mem_cons.mp hwy with he | hmem
                · have hpe : i = iy ∧ v = yv := by simpa using he
                  exact absurd hpe.1 hne
                · exact hmem
              exact mem_ite_cons (iha i w v hwx hmem hm)
            · intro i w hwx hny hm
              rw [hproj]
              have hny' : i ∉ ys.map Prod.fst := by
                intro hmem
                exact hny (by simpa using Or.inr hmem)
              exact mem_ite_cons (ihb i w hwx hny' hm)
            · intro i w hwy hnx hm
              rw [hproj]
              rcases List.mem_cons.mp hwy with he | hmem
              · obtain ⟨rfl, rfl⟩ : i = iy ∧ w = yv := by simpa using he
                rw [if_pos hm]
                exact List.mem_cons_self _ _
              · exact mem_ite_cons (ihc i w hmem hnx hm)
          · have hee : ix = iy := by omega
            have hproj : (resid_update mask alpha ((ix, xv) :: xs)
                ((iy, yv) :: ys) beta).2.1 =
                (if mask iy < 0 then
                  (iy, xv - alpha * yv) :: (resid_update mask alpha xs ys
                    (updQ beta iy (beta iy + yv * yv))).2.1
                else (resid_update mask alpha xs ys
                  (updQ beta iy (beta iy + yv * yv))).2.1) := by
              simp only [resid_update, if_neg hc1, if_neg hc2]
              split <;> rfl
            obtain ⟨iha, ihb, ihc⟩ := ih xs ys (updQ beta iy (beta iy + yv * yv))
              (by simp at hlen ⊢; omega) (ascPairs_tail hx) (ascPairs_tail hy)
            refine ⟨?_, ?_, ?_⟩
            · intro i w v hwx hwy hm
              rw [hproj]
              by_cases hie : i = iy
              · subst hie
                have hwv : w = xv := ascPairs_head_mem_eq (hee ▸ hx) (by
                  exact hee ▸ hwx)
                have hvv : v = yv := ascPairs_head_mem_eq hy hwy
                subst hwv
                subst hvv
                rw [if_pos hm]
                exact List.mem_cons_self _ _
              · have hmemx : (i, w) ∈ xs := by
                  rcases List.mem_cons.mp hwx with he | hmem
                  · have hpe : i = ix ∧ w = xv := by simpa using he
                    exact absurd hpe.1 (by omega)
                  · exact hmem
                have hmemy : (i, v) ∈ ys := by
                  rcases List.mem_cons.mp hwy with he | hmem
                  · have hpe : i = iy ∧ v = yv := by simpa using he
                    exact absurd hpe.1 hie
                  · exact hmem
                exact mem_ite_cons (iha i w v hmemx hmemy hm)
            · intro i w hwx hny hm
              rw [hproj]
              have hie : i ≠ iy := by simp at hny; tauto
              have hmemx : (i, w) ∈ xs := by
                rcases List.mem_cons.mp hwx with he | hmem
                · have hpe : i = ix ∧ w = xv := by simpa using he
                  exact absurd hpe.1 (by omega)
                · exact hmem
              have hny' : i ∉ ys.map Prod.fst := by simp at hny ⊢; tauto
              exact mem_ite_cons (ihb i w hmemx hny' hm)
            · intro i w hwy hnx hm
              rw [hproj]
              have hie : i ≠ ix := by simp at hnx; tauto
              have hmemy : (i, w) ∈ ys := by
                rcases List.mem_cons.mp hwy with he | hmem
                · have hpe : i = iy ∧ w = yv := by simpa using he
                  exact absurd hpe.1 (by omega)
                · exact hmem
              have hnx' : i ∉ xs.map Prod.fst := by simp at hnx ⊢; tauto
              exact mem_ite_cons (ihc i w hmemy hnx' hm)

theorem toList_succ (a : ℕ → ℕ) (n : ℕ) :
    toList a (n + 1) = toList a n ++ [a (n + 1)] := by
  simp [toList, List.range_succ]

theorem toList_push (a : ℕ → ℕ) (v n : ℕ) :
    List.Perm (toList (siftUp a v (n + 1)) (n + 1)) (v :: toList a n) := by
  refine (siftUp_perm (n + 1) a v (n + 1) (by omega) le_rfl).trans ?_
  rw [toList_succ,
    toList_updN_out (a := a) (i := n + 1) v n (Or.inr (by omega)), updN_same]
  exact List.perm_append_singleton _ _

theorem isHeap_push (a : ℕ → ℕ) (v n : ℕ) (h : isHeap a n) :
    isHeap (siftUp a v (n + 1)) (n + 1) := by
  apply siftUp_heap (n + 1) a v (n + 1) (by omega) le_rfl
  · intro j hj2 hjm hne
    left
    exact h j hj2 (by omega)
  · intro j hj2 hjm hpar
    omega
  · intro _ j hj2 hjm hpar
    omega

theorem spmv_entry_skip (mask : ℕ → ℤ) (xj : ℚ) (st : MvState) (e : ℕ × ℚ)
    (h : 0 ≤ mask e.1) : spmv_entry mask xj st e = st := by
  simp [spmv_entry, h]

theorem spmv_entry_spec (mask : ℕ → ℤ) (xj : ℚ) (st : MvState) (e : ℕ × ℚ)
    (hinv : MvInv mask st) :
    MvInv mask (spmv_entry mask xj st e) ∧
      (mask e.1 < 0 →
        ((spmv_entry mask xj st e).flag e.1 = true
          ∧ (∀ i, i ≠ e.1 → (spmv_entry mask xj st e).flag i = st.flag i)
          ∧ (spmv_entry mask xj st e).sv e.1 =
              (if st.flag e.1 = true then st.sv e.1 else 0) + e.2 * xj
          ∧ (∀ i, i ≠ e.1 → (spmv_entry mask xj st e).sv i = st.sv i))) := by
  obtain ⟨hheap, hnd, hflag, hmask⟩ := hinv
  by_cases hm : 0 ≤ mask e.1
  · rw [spmv_entry_skip mask xj st e hm]
    exact ⟨⟨hheap, hnd, hflag, hmask⟩, fun h => absurd h (by omega)⟩
  · push_neg at hm
    by_cases hf : st.flag e.1 = false
    · -- first touch: push on the heap
      have hnotmem : e.1 ∉ toList st.heap st.yn := by
        intro hmem
        rw [(hflag e.1).mpr hmem] at hf
        simp at hf
      have hperm := toList_push st.heap e.1 st.yn
      have hstep : spmv_entry mask xj st e =
          { yn := st.yn + 1, heap := siftUp st.heap e.1 (st.yn + 1),
            sv := updQ (updQ st.sv e.1 0) e.1 (updQ st.sv e.1 0 e.1 + e.2 * xj),
            flag := updB st.flag e.1 true } := by
        simp [spmv_entry, hf, not_le.mpr hm]
      rw [hstep]
      refine ⟨⟨isHeap_push _ _ _ hheap, ?_, ?_, ?_⟩, ?_⟩
      · exact (hperm.nodup_iff).mpr (List.nodup_cons.mpr ⟨hnotmem, hnd⟩)
      · intro i
        rw [hperm.mem_iff]
        by_cases hie : i = e.1
        · subst hie
          simp [updB]
        · simp only [updB, if_neg hie, List.mem_cons]
          rw [hflag i]
          constructor
          · exact fun h => Or.inr h
          · rintro (h | h)
            · exact absurd h hie
            · exact h
      · intro i hi
        rw [hperm.mem_iff] at hi
        rcases List.mem_cons.mp hi with rfl | hi
        · exact hm
        · exact hmask i hi
      · intro _
        refine ⟨by simp [updB], fun i hie => by simp [updB, hie], ?_, fun i hie => by
          simp [updQ, hie]⟩
        simp [updQ, hf]
    · -- already flagged: only sv accumulates
      rw [Bool.not_eq_false] at hf
      have hstep : spmv_entry mask xj st e =
          { st with sv := updQ st.sv e.1 (st.sv e.1 + e.2 * xj) } := by
        simp [spmv_entry, hf, not_le.mpr hm]
      rw [hstep]
      refine ⟨⟨hheap, hnd, hflag, hmask⟩, ?_⟩
      intro _
      exact ⟨hf, fun i _ => rfl, by simp [updQ, hf], fun i hie => by simp [updQ, hie]⟩

theorem lSum_nil (i : ℕ) : lSum [] i = 0 := rfl

theorem lSum_cons (e : ℕ × ℚ) (l : List (ℕ × ℚ)) (i : ℕ) :
    lSum (e :: l) i = (if e.1 = i then e.2 else 0) + lSum l i := by
  simp [lSum]

theorem colFold_spec (mask : ℕ → ℤ) (xj : ℚ) :
    ∀ (l : List (ℕ × ℚ)) (st : MvState), MvInv mask st →
    MvInv mask (l.foldl (spmv_entry mask xj) st) ∧
      (∀ i, 0 ≤ mask i →
        (l.foldl (spmv_entry mask xj) st).sv i = st.sv i ∧
        (l.foldl (spmv_entry mask xj) st).flag i = st.flag i) ∧
      (∀ i, mask i < 0 →
        ((l.foldl (spmv_entry mask xj) st).flag i = true ↔
          (st.flag i = true ∨ i ∈ l.map Prod.fst)) ∧
        ((l.foldl (spmv_entry mask xj) st).sv i =
          if (l.foldl (spmv_entry mask xj) st).flag i = true
          then (if st.flag i = true then st.sv i else 0) + xj * lSum l i
          else st.sv i)) := by
  intro l
  induction l with
  | nil =>
    intro st hinv
    refine ⟨hinv, fun i _ => ⟨rfl, rfl⟩, fun i _ => ⟨by simp, ?_⟩⟩
    by_cases hf : st.flag i = true
    · simp [hf, lSum_nil]
    · simp [hf]
  | cons e rest ih =>
    intro st hinv
    obtain ⟨hinv1, hspec⟩ := spmv_entry_spec mask xj st e hinv
    obtain ⟨ih1, ih2, ih3⟩ := ih (spmv_entry mask xj st e) hinv1
    have hfold : (e :: rest).foldl (spmv_entry mask xj) st =
        rest.foldl (spmv_entry mask xj) (spmv_entry mask xj st e) := rfl
    rw [hfold]
    by_cases hme : 0 ≤ mask e.1
    · -- entry masked: skipped entirely
      rw [spmv_entry_skip mask xj st e hme] at *
      refine ⟨ih1, ih2, ?_⟩
      intro i hmi
      obtain ⟨hf, hs⟩ := ih3 i hmi
      have hie : i ≠ e.1 := by
        intro h
        rw [h] at hmi
        omega
      constructor
      · rw [hf]
        simp only [List.map_cons, List.mem_cons]
        constructor
        · rintro (h | h)
          · exact Or.inl h
          · exact Or.inr (Or.inr h)
        · rintro (h | h | h)
          · exact Or.inl h
          · exact absurd h hie
          · exact Or.inr h
      · rw [hs, lSum_cons, if_neg (by omega : ¬e.1 = i)]
        ring_nf
    · push_neg at hme
      obtain ⟨hfe, hfo, hse, hso⟩ := hspec hme
      refine ⟨ih1, ?_, ?_⟩
      · intro i hmi
        have hie : i ≠ e.1 := by
          intro h
          rw [h] at hmi
          omega
        obtain ⟨hs, hf⟩ := ih2 i hmi
        exact ⟨hs.trans (hso i hie), hf.trans (hfo i hie)⟩
      · intro i hmi
        obtain ⟨hf, hs⟩ := ih3 i hmi
        by_cases hie : i = e.1
        · subst hie
          have hft : (rest.foldl (spmv_entry mask xj)
              (spmv_entry mask xj st e)).flag e.1 = true := hf.mpr (Or.inl hfe)
          constructor
          · simp [hft]
          · rw [hs]
            simp only [hft, hfe, if_true, lSum_cons, hse, if_pos rfl]
            ring_nf
        · constructor
          · rw [hf, hfo i hie]
            simp only [List.map_cons, List.mem_cons]
            constructor
            · rintro (h | h)
              · exact Or.inl h
              · exact Or.inr (Or.inr h)
            · rintro (h | h | h)
              · exact Or.inl h
              · exact absurd h hie
              · exact Or.inr h
          · rw [hs, hfo i hie, hso i hie, lSum_cons, if_neg (by omega : ¬e.1 = i)]
            ring_nf

theorem lSum_eq_zero {l : List (ℕ × ℚ)} {i : ℕ} (h : i ∉ l.map Prod.fst) :
    lSum l i = 0 := by
  induction l with
  | nil => rfl
  | cons e rest ih =>
    rw [lSum_cons, if_neg (by simp at h; omega), ih (by simp at h ⊢; tauto)]
    ring

theorem xTotal_cons (A : sp_mat_c) (e : ℕ × ℚ) (rest : List (ℕ × ℚ)) (i : ℕ) :
    xTotal A (e :: rest) i = e.2 * lSum (colEntries A e.1) i + xTotal A rest i := by
  simp [xTotal]

theorem spmv_accum_spec (A : sp_mat_c) (mask : ℕ → ℤ) :
    ∀ (x : List (ℕ × ℚ)) (st : MvState), MvInv mask st →
    MvInv mask (spmv_accum A mask st x) ∧
      (∀ i, 0 ≤ mask i →
        (spmv_accum A mask st x).sv i = st.sv i ∧
        (spmv_accum A mask st x).flag i = st.flag i) ∧
      (∀ i, mask i < 0 →
        ((spmv_accum A mask st x).flag i = true ↔
          (st.flag i = true ∨
            ∃ e ∈ x, e.2 ≠ 0 ∧ i ∈ (colEntries A e.1).map Prod.fst)) ∧
        ((spmv_accum A mask st x).sv i =
          if (spmv_accum A mask st x).flag i = true
          then (if st.flag i = true then st.sv i else 0) + xTotal A x i
          else st.sv i)) := by
  intro x
  induction x with
  | nil =>
    intro st hinv
    refine ⟨hinv, fun i _ => ⟨rfl, rfl⟩, fun i _ => ⟨by simp [spmv_accum], ?_⟩⟩
    by_cases hf : st.flag i = true
    · simp [spmv_accum, hf, xTotal]
    · simp [spmv_accum, hf]
  | cons e rest ih =>
    intro st hinv
    have hstep : spmv_accum A mask st (e :: rest) =
        spmv_accum A mask
          (if |e.2| = 0 then st
           else (colEntries A e.1).foldl (spmv_entry mask e.2) st) rest := by
      simp only [spmv_accum, List.foldl_cons]
    by_cases hz : |e.2| = 0
    · have hz' : e.2 = 0 := abs_eq_zero.mp hz
      rw [hstep, if_pos hz]
      obtain ⟨ih1, ih2, ih3⟩ := ih st hinv
      refine ⟨ih1, ih2, ?_⟩
      intro i hmi
      obtain ⟨hf, hs⟩ := ih3 i hmi
      constructor
      · rw [hf]
        constructor
        · rintro (h | ⟨e', he', hne, hmem⟩)
          · exact Or.inl h
          · exact Or.inr ⟨e', List.mem_cons_of_mem _ he', hne, hmem⟩
        · rintro (h | ⟨e', he', hne, hmem⟩)
          · exact Or.inl h
          · rcases List.mem_cons.mp he' with rfl | he''
            · exact absurd hz' hne
            · exact Or.inr ⟨e', he'', hne, hmem⟩
      · rw [hs, xTotal_cons, hz']
        ring_nf
    · rw [hstep, if_neg hz]
      have hz' : e.2 ≠ 0 := fun h => hz (by rw [h]; simp)
      obtain ⟨hc1, hc2, hc3⟩ := colFold_spec mask e.2 (colEntries A e.1) st hinv
      obtain ⟨ih1, ih2, ih3⟩ := ih _ hc1
      refine ⟨ih1, ?_, ?_⟩
      · intro i hmi
        obtain ⟨hs1, hf1⟩ := hc2 i hmi
        obtain ⟨hs2, hf2⟩ := ih2 i hmi
        exact ⟨hs2.trans hs1, hf2.trans hf1⟩
      · intro i hmi
        obtain ⟨hcf, hcs⟩ := hc3 i hmi
        obtain ⟨hf, hs⟩ := ih3 i hmi
        constructor
        · rw [hf, hcf]
          constructor
          · rintro ((h | h) | ⟨e', he', hne, hmem⟩)
            · exact Or.inl h
            · exact Or.inr ⟨e, List.mem_cons_self _ _, hz', h⟩
            · exact Or.inr ⟨e', List.mem_cons_of_mem _ he', hne, hmem⟩
          · rintro (h | ⟨e', he', hne, hmem⟩)
            · exact Or.inl (Or.inl h)
            · rcases List.mem_cons.mp he' with rfl | he''
              · exact Or.inl (Or.inr hmem)
              · exact Or.inr ⟨e', he'', hne, hmem⟩
        · set st1 := (colEntries A e.1).foldl (spmv_entry mask e.2) st with hst1
          rw [hs, xTotal_cons]
          by_cases hflag : (spmv_accum A mask st1 rest).flag i = true
          · rw [if_pos hflag, if_pos hflag]
            by_cases hf1 : st1.flag i = true
            · have hv : st1.sv i =
                  (if st.flag i = true then st.sv i else 0) +
                    e.2 * lSum (colEntries A e.1) i := by
                rw [hcs, if_pos hf1]
              rw [if_pos hf1, hv]
              ring
            · -- i untouched by this column and unflagged before it
              have hstf : st.flag i ≠ true := by
                intro h
                exact hf1 (hcf.mpr (Or.inl h))
              have hnm : i ∉ (colEntries A e.1).map Prod.fst := by
                intro h
                exact hf1 (hcf.mpr (Or.inr h))
              rw [if_neg hf1, if_neg hstf, lSum_eq_zero hnm]
              ring
          · rw [if_neg hflag, if_neg hflag]
            have hf1 : st1.flag i ≠ true := by
              intro h
              exact hflag (hf.mpr (Or.inl h))
            rw [hcs, if_neg hf1]

theorem sorted_nodup_strict (l : List ℕ) (hs : l.Sorted (· ≤ ·)) (hn : l.Nodup) :
    l.Sorted (· < ·) := by
  rw [List.Sorted, List.pairwise_iff_getElem] at hs ⊢
  intro i j hi hj hij
  refine lt_of_le_of_ne (hs i j hi hj hij) ?_
  intro heq
  exact absurd (List.Nodup.getElem_inj_iff hn |>.mp heq) (by omega)

theorem clear_foldl : ∀ (l : List ℕ) (f : ℕ → Bool) (i : ℕ),
    (l.foldl (fun f i => updB f i false) f) i = if i ∈ l then false else f i := by
  intro l
  induction l with
  | nil => simp
  | cons a t ih =>
    intro f i
    rw [List.foldl_cons, ih]
    by_cases hit : i ∈ t
    · simp [hit]
    · by_cases hia : i = a
      · subst hia
        simp [hit, updB]
      · simp [hit, hia, updB]

theorem MvInv_init (mask : ℕ → ℤ) (yi0 : ℕ → ℕ) (sv0 : ℕ → ℚ) (flag0 : ℕ → Bool)
    (hflag : ∀ i, flag0 i = false) : MvInv mask ⟨0, yi0, sv0, flag0⟩ := by
  refine ⟨?_, by simp [toList], ?_, by simp [toList]⟩
  · intro j hj2 hj0
    change j ≤ 0 at hj0
    omega
  · intro i
    simp [toList, hflag i]

/-- Full functional specification of `sp_mv`, assuming clean `flag` on entry
and column-wise ascending `A` is not even needed: duplicates within a column
accumulate additively. -/
theorem sp_mv_spec (A : sp_mat_c) (x : List (ℕ × ℚ)) (yi0 : ℕ → ℕ) (sv0 : ℕ → ℚ)
    (flag0 : ℕ → Bool) (mask : ℕ → ℤ) (hflag : ∀ i, flag0 i = false) :
    ((sp_mv A x yi0 sv0 flag0 mask).2.1.Sorted (· < ·))
    ∧ (∀ i, i ∈ (sp_mv A x yi0 sv0 flag0 mask).2.1 ↔
        (mask i < 0 ∧ ∃ e ∈ x, e.2 ≠ 0 ∧ i ∈ (colEntries A e.1).map Prod.fst))
    ∧ ((sp_mv A x yi0 sv0 flag0 mask).2.2.1 =
        (sp_mv A x yi0 sv0 flag0 mask).2.1.map (xTotal A x))
    ∧ (∀ i, (sp_mv A x yi0 sv0 flag0 mask).2.2.2.2 i = false)
    ∧ ((sp_mv A x yi0 sv0 flag0 mask).1 =
        (sp_mv A x yi0 sv0 flag0 mask).2.1.length) := by
  obtain ⟨hinv, hmask0, hchar⟩ :=
    spmv_accum_spec A mask x ⟨0, yi0, sv0, flag0⟩ (MvInv_init mask yi0 sv0 flag0 hflag)
  set st := spmv_accum A mask ⟨0, yi0, sv0, flag0⟩ x with hst
  obtain ⟨hheap, hnd, hfiff, hm⟩ := hinv
  obtain ⟨hsort, hperm, _⟩ := drainFrom_spec st.yn st.yn st.heap le_rfl hheap
    (fun p q hp _ hq => by omega) (fun p q _ _ hq hq' => by omega)
  have hyi : (sp_mv A x yi0 sv0 flag0 mask).2.1 =
      toList (drainFrom st.heap st.yn) st.yn := rfl
  have hmem : ∀ i, i ∈ (sp_mv A x yi0 sv0 flag0 mask).2.1 ↔
      i ∈ toList st.heap st.yn := by
    intro i
    rw [hyi, hperm.mem_iff]
  have hmemflag : ∀ i, i ∈ (sp_mv A x yi0 sv0 flag0 mask).2.1 ↔ st.flag i = true := by
    intro i
    rw [hmem i, hfiff i]
  refine ⟨?_, ?_, ?_, ?_, ?_⟩
  · rw [hyi]
    exact sorted_nodup_strict _ (sortedOn_toList _ _ hsort)
      ((hperm.nodup_iff).mpr hnd)
  · intro i
    rw [hmemflag i]
    constructor
    · intro hf
      have hmi : mask i < 0 := hm i ((hfiff i).mp hf)
      obtain ⟨hiff, _⟩ := hchar i hmi
      rcases hiff.mp hf with h | h
      · have h' : flag0 i = true := h
        rw [hflag i] at h'
        exact absurd h' (by simp)
      · exact ⟨hmi, h⟩
    · rintro ⟨hmi, htouch⟩
      exact ((hchar i hmi).1).mpr (Or.inr htouch)
  · have : ∀ i ∈ (sp_mv A x yi0 sv0 flag0 mask).2.1, st.sv i = xTotal A x i := by
      intro i hi
      have hfi : st.flag i = true := (hmemflag i).mp hi
      have hmi : mask i < 0 := hm i ((hfiff i).mp hfi)
      obtain ⟨_, hsv⟩ := hchar i hmi
      rw [hsv, if_pos hfi, if_neg (by simp [hflag i])]
      ring
    calc (sp_mv A x yi0 sv0 flag0 mask).2.2.1
        = (sp_mv A x yi0 sv0 flag0 mask).2.1.map st.sv := rfl
      _ = (sp_mv A x yi0 sv0 flag0 mask).2.1.map (xTotal A x) :=
          List.map_congr_left this
  · intro i
    have hclear : (sp_mv A x yi0 sv0 flag0 mask).2.2.2.2 i =
        if i ∈ (sp_mv A x yi0 sv0 flag0 mask).2.1 then false else st.flag i :=
      clear_foldl _ _ i
    rw [hclear]
    by_cases hi : i ∈ (sp_mv A x yi0 sv0 flag0 mask).2.1
    · simp [hi]
    · rw [if_neg hi]
      by_cases hf : st.flag i = true
      · exact absurd ((hmemflag i).mpr hf) hi
      · simpa using hf
  · rw [hyi, toList_length]
    rfl

theorem spmv_accum_filter (A : sp_mat_c) (mask : ℕ → ℤ) :
    ∀ (x : List (ℕ × ℚ)) (st : MvState),
      spmv_accum A mask st x =
        spmv_accum A mask st (x.filter fun e => decide (e.2 ≠ 0)) := by
  intro x
  induction x with
  | nil => intro st; rfl
  | cons e rest ih =>
    intro st
    by_cases hz : e.2 = 0
    · have h1 : (e :: rest).filter (fun e => decide (e.2 ≠ 0)) =
          rest.filter (fun e => decide (e.2 ≠ 0)) := by
        simp [List.filter_cons, hz]
      rw [h1]
      have h2 : spmv_accum A mask st (e :: rest) = spmv_accum A mask st rest := by
        simp only [spmv_accum, List.foldl_cons, abs_eq_zero, hz]
        simp
      rw [h2, ih st]
    · have h1 : (e :: rest).filter (fun e => decide (e.2 ≠ 0)) =
          e :: rest.filter (fun e => decide (e.2 ≠ 0)) := by
        simp [List.filter_cons, hz]
      rw [h1]
      have habs : ¬|e.2| = 0 := fun h => hz (abs_eq_zero.mp h)
      have h2 : spmv_accum A mask st (e :: rest) =
          spmv_accum A mask ((colEntries A e.1).foldl (spmv_entry mask e.2) st)
            rest := by
        simp only [spmv_accum, List.foldl_cons, if_neg habs]
      have h3 : spmv_accum A mask st
            (e :: rest.filter fun e => decide (e.2 ≠ 0)) =
          spmv_accum A mask ((colEntries A e.1).foldl (spmv_entry mask e.2) st)
            (rest.filter fun e => decide (e.2 ≠ 0)) := by
        simp only [spmv_accum, List.foldl_cons, if_neg habs]
      rw [h2, h3, ih]

theorem sp_mv_filter (A : sp_mat_c) (x : List (ℕ × ℚ)) (yi0 : ℕ → ℕ)
    (sv0 : ℕ → ℚ) (flag0 : ℕ → Bool) (mask : ℕ → ℤ) :
    sp_mv A x yi0 sv0 flag0 mask =
      sp_mv A (x.filter fun e => decide (e.2 ≠ 0)) yi0 sv0 flag0 mask := by
  simp only [sp_mv]
  rw [← spmv_accum_filter]

/-- C8: `heap_sort`, applied to an array of `k` indices in arbitrary order,
rearranges it in place into a permutation of the input sorted ascending;
for `k ≤ 1` it leaves the array unchanged; and on a duplicate-free index
list (as the distinct pivots of an X_skel column are) the result is
strictly ascending. -/
theorem C8_heap_sort_sorts (k : ℕ) (uv : ℕ → ℕ) (l : List ℕ) :
    List.Perm ((List.range k).map (heap_sort k uv)) ((List.range k).map uv)
    ∧ ((List.range k).map (heap_sort k uv)).Sorted (· ≤ ·)
    ∧ (k ≤ 1 → heap_sort k uv = uv)
    ∧ (List.Perm (heap_sort_list l) l)
    ∧ (l.Nodup → (heap_sort_list l).Sorted (· < ·)) :=
  ⟨heap_sort_perm k uv, heap_sort_sorted k uv, heap_sort_small k uv,
    heap_sort_list_perm l, heap_sort_list_strict l⟩

theorem C8_heap_sort_sorts_witness :
    ((List.range 4).map (heap_sort 4 fun t => [3, 1, 2, 0].getD t 0)).Sorted (· ≤ ·)
    ∧ (heap_sort_list [3, 1, 2, 0]).Sorted (· < ·) :=
  ⟨(C8_heap_sort_sorts 4 (fun t => [3, 1, 2, 0].getD t 0) [3, 1, 2, 0]).2.1,
    (C8_heap_sort_sorts 4 (fun t => [3, 1, 2, 0].getD t 0) [3, 1, 2, 0]).2.2.2.2
      (by decide)⟩

/-- C2: `resid_update` on two index-ascending sparse vectors `x`, `y` with
scalar `alpha`, dense `beta` and signed mask: where both are present and
`mask[i] < 0`, `r_i = x_i - alpha*y_i` and `beta_i += y_i^2`; where only `x`
is present (mask admitted), `r_i = x_i` and `beta_i` untouched; where only
`y` is present, `r_i = -alpha*y_i` and `beta_i := y_i^2` (overwrite); rows
with `mask[i] >= 0` are dropped from `r` but `beta` still updates wherever
`y` is present; `r` has strictly ascending indices and the return value is
`nnz(r)`. -/
theorem C2_resid_update_correct (mask : ℕ → ℤ) (alpha : ℚ)
    (x y : List (ℕ × ℚ)) (beta : ℕ → ℚ) (hx : ascPairs x) (hy : ascPairs y) :
    ascPairs (resid_update mask alpha x y beta).2.1
    ∧ (∀ i xv yv, (i, xv) ∈ x → (i, yv) ∈ y →
        (mask i < 0 → (i, xv - alpha * yv) ∈ (resid_update mask alpha x y beta).2.1)
        ∧ (resid_update mask alpha x y beta).2.2 i = beta i + yv * yv)
    ∧ (∀ i xv, (i, xv) ∈ x → i ∉ y.map Prod.fst →
        (mask i < 0 → (i, xv) ∈ (resid_update mask alpha x y beta).2.1)
        ∧ (resid_update mask alpha x y beta).2.2 i = beta i)
    ∧ (∀ i yv, (i, yv) ∈ y → i ∉ x.map Prod.fst →
        (mask i < 0 → (i, -alpha * yv) ∈ (resid_update mask alpha x y beta).2.1)
        ∧ (resid_update mask alpha x y beta).2.2 i = yv * yv)
    ∧ (∀ i, 0 ≤ mask i → i ∉ (resid_update mask alpha x y beta).2.1.map Prod.fst)
    ∧ (resid_update mask alpha x y beta).1 =
        (resid_update mask alpha x y beta).2.1.length := by
  obtain ⟨hbeta1, hbeta2⟩ := resid_update_beta mask alpha x y beta hx hy
  obtain ⟨hma, hmb, hmc⟩ := resid_update_mem mask alpha x y beta hx hy
  refine ⟨resid_update_sorted mask alpha x y beta hx hy, ?_, ?_, ?_, ?_,
    resid_update_count mask alpha x y beta⟩
  · intro i xv yv hxv hyv
    refine ⟨fun hm => hma i xv yv hxv hyv hm, ?_⟩
    rw [hbeta1 i yv hyv, if_pos (List.mem_map.mpr ⟨(i, xv), hxv, rfl⟩)]
  · intro i xv hxv hny
    exact ⟨fun hm => hmb i xv hxv hny hm, hbeta2 i hny⟩
  · intro i yv hyv hnx
    refine ⟨fun hm => hmc i yv hyv hnx hm, ?_⟩
    rw [hbeta1 i yv hyv, if_neg hnx]
  · intro i hm hmem
    obtain ⟨p, hp, rfl⟩ := List.mem_map.mp hmem
    have := (resid_update_r_shape mask alpha x y beta p hp).1
    omega

theorem C2_resid_update_correct_witness :
    ((0 : ℕ), (1 : ℚ)) ∈ (resid_update (fun i => if i = 1 then 0 else -1) 2
      [((0 : ℕ), (1 : ℚ)), (2, 3)] [((1 : ℕ), (2 : ℚ)), (2, 5)]
      (fun _ => 0)).2.1 := by
  have h := C2_resid_update_correct (fun i => if i = 1 then 0 else -1) 2
    [((0 : ℕ), (1 : ℚ)), (2, 3)] [((1 : ℕ), (2 : ℚ)), (2, 5)] (fun _ => 0)
    (by decide) (by decide)
  exact (h.2.2.1 0 1 (by decide) (by decide)).1 (by decide)

/-- C3: `sp_mv` computes `y := A x` for a CSC `A` with per-column ascending
indices and possibly-unsorted sparse `x`: rows with `mask[i] >= 0` are
suppressed, exact-zero components of `x` contribute nothing (filtering them
out gives the identical result), the emitted index list is strictly
ascending (hence duplicate free), the values are the sums of `A`'s column
entries times the corresponding `x` components, and the return value is
`nnz(y)`. -/
theorem C3_sp_mv_correct (A : sp_mat_c) (x : List (ℕ × ℚ)) (yi0 : ℕ → ℕ)
    (sv0 : ℕ → ℚ) (flag0 : ℕ → Bool) (mask : ℕ → ℤ)
    (hA : colsAscending A) (hflag : ∀ i, flag0 i = false) :
    ((sp_mv A x yi0 sv0 flag0 mask).2.1.Sorted (· < ·))
    ∧ (∀ i, 0 ≤ mask i → i ∉ (sp_mv A x yi0 sv0 flag0 mask).2.1)
    ∧ (∀ i, i ∈ (sp_mv A x yi0 sv0 flag0 mask).2.1 ↔
        (mask i < 0 ∧ ∃ e ∈ x, e.2 ≠ 0 ∧ i ∈ (colEntries A e.1).map Prod.fst))
    ∧ ((sp_mv A x yi0 sv0 flag0 mask).2.2.1 =
        (sp_mv A x yi0 sv0 flag0 mask).2.1.map (xTotal A x))
    ∧ (sp_mv A x yi0 sv0 flag0 mask =
        sp_mv A (x.filter fun e => decide (e.2 ≠ 0)) yi0 sv0 flag0 mask)
    ∧ ((sp_mv A x yi0 sv0 flag0 mask).1 =
        (sp_mv A x yi0 sv0 flag0 mask).2.1.length) := by
  obtain ⟨h1, h2, h3, h4, h5⟩ := sp_mv_spec A x yi0 sv0 flag0 mask hflag
  refine ⟨h1, ?_, h2, h3, sp_mv_filter A x yi0 sv0 flag0 mask, h5⟩
  intro i hm hmem
  have := ((h2 i).mp hmem).1
  omega

theorem C3_sp_mv_correct_witness :
    ((sp_mv ⟨2, 2, (fun j => min j 2), (fun p => p), fun _ => 1⟩
      [((0 : ℕ), (2 : ℚ))] (fun _ => 0) (fun _ => 0) (fun _ => false)
      (fun _ => -1)).2.1.Sorted (· < ·)) :=
  (C3_sp_mv_correct ⟨2, 2, (fun j => min j 2), (fun p => p), fun _ => 1⟩
    [((0 : ℕ), (2 : ℚ))] (fun _ => 0) (fun _ => 0) (fun _ => false)
    (fun _ => -1) (by decide) (fun i => rfl)).1

theorem scanStep_norm1 (acc : ScanAcc) (i : ℕ) (tw tn : ℚ) :
    (scanStep 1 acc i tw tn).norm = max acc.norm tn := by
  rcases lt_or_ge acc.norm tn with h | h
  · simp [scanStep, h, max_eq_right (le_of_lt h)]
  · simp [scanStep, not_lt.mpr h, max_eq_left h]

theorem scanStep_norm2 (acc : ScanAcc) (i : ℕ) (tw tn : ℚ) :
    (scanStep 2 acc i tw tn).norm = acc.norm + tn := by
  simp [scanStep]

theorem scanFold_norm1 (g f : ℕ × ℚ → ℚ) :
    ∀ (l : List (ℕ × ℚ)) (acc : ScanAcc),
    (l.foldl (fun acc e => scanStep 1 acc e.1 (g e) (f e)) acc).norm =
      (l.map f).foldl max acc.norm := by
  intro l
  induction l with
  | nil => intro acc; rfl
  | cons e rest ih =>
    intro acc
    rw [List.foldl_cons, ih, List.map_cons, List.foldl_cons]
    congr 1
    exact scanStep_norm1 acc e.1 (g e) (f e)

theorem scanFold_norm2 (g f : ℕ × ℚ → ℚ) :
    ∀ (l : List (ℕ × ℚ)) (acc : ScanAcc),
    (l.foldl (fun acc e => scanStep 2 acc e.1 (g e) (f e)) acc).norm =
      acc.norm + (l.map f).sum := by
  intro l
  induction l with
  | nil => intro acc; simp
  | cons e rest ih =>
    intro acc
    rw [List.foldl_cons, ih, List.map_cons, List.sum_cons]
    rw [scanStep_norm2]
    ring

theorem foldl_max_zero (a : ℚ) (l : List ℚ) (h : 0 ≤ a) :
    (a :: l).foldl max 0 = l.foldl max a := by
  rw [List.foldl_cons, max_eq_right h]

theorem initScan_norm1 (sqrt : ℚ → ℚ) (D : ℕ → ℚ) (r : List (ℕ × ℚ)) :
    (initScan 1 sqrt D r).norm = (r.map fun e => |e.2 / D e.1|).foldl max 0 := by
  rcases r with _ | ⟨e0, rest⟩
  · rfl
  · rw [List.map_cons, foldl_max_zero _ _ (abs_nonneg _)]
    exact scanFold_norm1 (fun e => e.2 / sqrt (D e.1)) (fun e => |e.2 / D e.1|)
      rest _

theorem initScan_norm2 (sqrt : ℚ → ℚ) (D : ℕ → ℚ) (r : List (ℕ × ℚ)) :
    (initScan 2 sqrt D r).norm = (r.map fun e => |e.2 / D e.1|).sum := by
  rcases r with _ | ⟨e0, rest⟩
  · rfl
  · rw [List.map_cons, List.sum_cons]
    exact scanFold_norm2 (fun e => e.2 / sqrt (D e.1)) (fun e => |e.2 / D e.1|)
      rest _

theorem reScan_norm1 (sqrt : ℚ → ℚ) (D beta : ℕ → ℚ) (r : List (ℕ × ℚ))
    (s0 : ℕ) (w0 : ℚ) :
    (reScan 1 sqrt D beta r s0 w0).norm =
      (r.map fun e => |e.2 / (D e.1 - beta e.1)|).foldl max 0 := by
  rcases r with _ | ⟨e0, rest⟩
  · rfl
  · rw [List.map_cons, foldl_max_zero _ _ (abs_nonneg _)]
    exact scanFold_norm1 (fun e => e.2 / sqrt (D e.1 - beta e.1))
      (fun e => |e.2 / (D e.1 - beta e.1)|) rest _

theorem reScan_norm2 (sqrt : ℚ → ℚ) (D beta : ℕ → ℚ) (r : List (ℕ × ℚ))
    (s0 : ℕ) (w0 : ℚ) :
    (reScan 2 sqrt D beta r s0 w0).norm =
      (r.map fun e => |e.2 / (D e.1 - beta e.1)|).sum := by
  rcases r with _ | ⟨e0, rest⟩
  · rfl
  · rw [List.map_cons, List.sum_cons]
    exact scanFold_norm2 (fun e => e.2 / sqrt (D e.1 - beta e.1))
      (fun e => |e.2 / (D e.1 - beta e.1)|) rest _

theorem colLoop_stop (stop_test : ℕ) (sqrt : ℚ → ℚ) (A : sp_mat_c) (D : ℕ → ℚ)
    (uj tol : ℚ) (fuel : ℕ) (st : ColState) (h : ¬tol < st.norm) :
    colLoop stop_test sqrt A D uj tol fuel st = st := by
  cases fuel with
  | zero => rfl
  | succ fuel => rw [colLoop, if_neg h]

theorem colLoop_step (stop_test : ℕ) (sqrt : ℚ → ℚ) (A : sp_mat_c) (D : ℕ → ℚ)
    (uj tol : ℚ) (fuel : ℕ) (st : ColState) (h : tol < st.norm) :
    colLoop stop_test sqrt A D uj tol (fuel + 1) st =
      colLoop stop_test sqrt A D uj tol fuel (colBody stop_test sqrt A D uj st) := by
  rw [colLoop, if_pos h]

/-- C4: the tolerance is rescaled exactly once on entry (policy 1:
`tol := tol^2/2`; policy 2, the default: `tol := tol/2`); the stopping norm
of every pivot scan is `max |r_i/(D_i-beta_i)|` under policy 1 and
`sum |r_i/(D_i-beta_i)|` under policy 2 (with `beta = 0` in the initial
scan); and the expansion loop iterates exactly while `norm > adjusted tol`. -/
theorem C4_stopping_policy (sqrt : ℚ → ℚ) (D beta : ℕ → ℚ) (tol : ℚ) :
    (adjustTol 1 tol = tol ^ 2 / 2)
    ∧ (adjustTol 2 tol = tol / 2)
    ∧ (∀ r : List (ℕ × ℚ),
        (initScan 1 sqrt D r).norm = (r.map fun e => |e.2 / D e.1|).foldl max 0)
    ∧ (∀ r : List (ℕ × ℚ),
        (initScan 2 sqrt D r).norm = (r.map fun e => |e.2 / D e.1|).sum)
    ∧ (∀ (r : List (ℕ × ℚ)) (s0 : ℕ) (w0 : ℚ),
        (reScan 1 sqrt D beta r s0 w0).norm =
          (r.map fun e => |e.2 / (D e.1 - beta e.1)|).foldl max 0)
    ∧ (∀ (r : List (ℕ × ℚ)) (s0 : ℕ) (w0 : ℚ),
        (reScan 2 sqrt D beta r s0 w0).norm =
          (r.map fun e => |e.2 / (D e.1 - beta e.1)|).sum)
    ∧ (∀ (stop_test : ℕ) (A : sp_mat_c) (uj tol' : ℚ) (fuel : ℕ) (st : ColState),
        (¬tol' < st.norm → colLoop stop_test sqrt A D uj tol' fuel st = st)
        ∧ (tol' < st.norm → colLoop stop_test sqrt A D uj tol' (fuel + 1) st =
            colLoop stop_test sqrt A D uj tol' fuel
              (colBody stop_test sqrt A D uj st)))
    ∧ (∀ (stop_test fuel : ℕ) (A B : sp_mat_c) (u : ℕ → ℚ) (beta0 sv0 : ℕ → ℚ),
        interp_skel stop_test sqrt fuel A B D u tol beta0 sv0 =
          driverAux stop_test sqrt fuel A B D u (adjustTol stop_test tol)
            beta0 sv0 B.n) := by
  refine ⟨by unfold adjustTol; norm_num; ring,
    by unfold adjustTol; norm_num; ring,
    initScan_norm1 sqrt D, initScan_norm2 sqrt D, reScan_norm1 sqrt D beta,
    reScan_norm2 sqrt D beta, ?_, fun _ _ _ _ _ _ _ => rfl⟩
  intro stop_test A uj tol' fuel st
  exact ⟨colLoop_stop stop_test sqrt A D uj tol' fuel st,
    colLoop_step stop_test sqrt A D uj tol' fuel st⟩

theorem C4_stopping_policy_witness :
    colLoop 2 (fun x => x) ⟨2, 2, (fun _ => 0), (fun _ => 0), fun _ => 0⟩
      (fun _ => 0) 0 10 5
      ⟨0, [], [], [], (fun _ => 0), (fun _ => -1), (fun _ => 0), (fun _ => 0),
        (fun _ => false), 0, 0, 1⟩ =
      ⟨0, [], [], [], (fun _ => 0), (fun _ => -1), (fun _ => 0), (fun _ => 0),
        (fun _ => false), 0, 0, 1⟩ := by
  have h := C4_stopping_policy (fun x => x) (fun _ => 0) (fun _ => 0) 0
  exact (h.2.2.2.2.2.2.1 2 _ 0 10 5 _).1 (by norm_num)

theorem getD_append_lt {α : Type} (l l' : List α) (d : α) :
    ∀ n, n < l.length → (l ++ l').getD n d = l.getD n d := by
  induction l with
  | nil => intro n h; simp at h
  | cons a t ih =>
    intro n h
    cases n with
    | zero => rfl
    | succ n => exact ih n (by simpa using h)

theorem getD_append_len {α : Type} (e d : α) :
    ∀ (l : List α), (l ++ [e]).getD l.length d = e := by
  intro l
  induction l with
  | nil => rfl
  | cons a t ih => simpa using ih

theorem getD_append_len_of {α : Type} (l : List α) (e d : α) (n : ℕ)
    (h : l.length = n) : (l ++ [e]).getD n d = e := by
  subst h
  exact getD_append_len e d l

/-- The pivot-selection scan returns the first maximiser of `|score|` (the
strict `>` in `if(fabs(tw)>fabs(w))` keeps the earlier candidate on ties),
stated as an invariant over the already-scanned prefix `done`. -/
theorem scanFold_argmax (stop_test : ℕ) (g f : ℕ × ℚ → ℚ) :
    ∀ (rest done : List (ℕ × ℚ)) (acc : ScanAcc) (t : ℕ),
    t < done.length →
    (done.getD t ((0 : ℕ), (0 : ℚ))).1 = acc.s →
    acc.w = g (done.getD t ((0 : ℕ), (0 : ℚ))) →
    (∀ m, m < done.length → |g (done.getD m ((0 : ℕ), (0 : ℚ)))| ≤ |acc.w|) →
    (∀ m, m < t → |g (done.getD m ((0 : ℕ), (0 : ℚ)))| < |acc.w|) →
    ∃ t', t' < (done ++ rest).length ∧
      ((done ++ rest).getD t' ((0 : ℕ), (0 : ℚ))).1 =
        (rest.foldl (fun acc e => scanStep stop_test acc e.1 (g e) (f e)) acc).s ∧
      (rest.foldl (fun acc e => scanStep stop_test acc e.1 (g e) (f e)) acc).w =
        g ((done ++ rest).getD t' ((0 : ℕ), (0 : ℚ))) ∧
      (∀ m, m < (done ++ rest).length →
        |g ((done ++ rest).getD m ((0 : ℕ), (0 : ℚ)))| ≤
          |(rest.foldl (fun acc e => scanStep stop_test acc e.1 (g e) (f e)) acc).w|) ∧
      (∀ m, m < t' →
        |g ((done ++ rest).getD m ((0 : ℕ), (0 : ℚ)))| <
          |(rest.foldl (fun acc e => scanStep stop_test acc e.1 (g e) (f e)) acc).w|) := by
  intro rest
  induction rest with
  | nil =>
    intro done acc t ht hts htw hble hblt
    refine ⟨t, by simpa using ht, by simpa using hts, by simpa using htw, ?_, ?_⟩
    · intro m hm
      simp only [List.append_nil] at hm ⊢
      exact hble m hm
    · intro m hm
      simp only [List.append_nil]
      exact hblt m hm
  | cons e rest ih =>
    intro done acc t ht hts htw hble hblt
    rw [List.foldl_cons]
    have hstep : ∀ P : ScanAcc → Prop,
        P (rest.foldl (fun acc e => scanStep stop_test acc e.1 (g e) (f e))
          (scanStep stop_test acc e.1 (g e) (f e))) →
        P ((e :: rest).foldl (fun acc e => scanStep stop_test acc e.1 (g e) (f e))
          acc) := fun P h => h
    by_cases hcmp : |acc.w| < |g e|
    · -- new best candidate at position done.length
      have hs : (scanStep stop_test acc e.1 (g e) (f e)).s = e.1 := by
        simp [scanStep, hcmp]
      have hw : (scanStep stop_test acc e.1 (g e) (f e)).w = g e := by
        simp [scanStep, hcmp]
      have hres := ih (done ++ [e]) (scanStep stop_test acc e.1 (g e) (f e))
        done.length (by simp)
        (by rw [getD_append_len, hs])
        (by rw [getD_append_len, hw])
        (by
          intro m hm
          rw [hw]
          simp only [List.length_append, List.length_singleton] at hm
          rcases Nat.lt_or_ge m done.length with hlt | hge
          · rw [getD_append_lt _ _ _ m hlt]
            exact le_of_lt (lt_of_le_of_lt (hble m hlt) hcmp)
          · have hme : m = done.length := by omega
            rw [hme, getD_append_len])
        (by
          intro m hm
          rw [hw, getD_append_lt _ _ _ m hm]
          exact lt_of_le_of_lt (hble m hm) hcmp)
      rw [List.append_assoc] at hres
      simpa using hres
    · -- keep the earlier candidate
      have hs : (scanStep stop_test acc e.1 (g e) (f e)).s = acc.s := by
        simp [scanStep, hcmp]
      have hw : (scanStep stop_test acc e.1 (g e) (f e)).w = acc.w := by
        simp [scanStep, hcmp]
      have hres := ih (done ++ [e]) (scanStep stop_test acc e.1 (g e) (f e))
        t (by simp; omega)
        (by rw [getD_append_lt _ _ _ t ht, hts, hs])
        (by rw [getD_append_lt _ _ _ t ht, hw]; exact htw)
        (by
          intro m hm
          rw [hw]
          simp only [List.length_append, List.length_singleton] at hm
          rcases Nat.lt_or_ge m done.length with hlt | hge
          · rw [getD_append_lt _ _ _ m hlt]
            exact hble m hlt
          · have hme : m = done.length := by omega
            rw [hme, getD_append_len]
            exact le_of_not_lt hcmp)
        (by
          intro m hm
          rw [hw, getD_append_lt _ _ _ m (lt_of_lt_of_le hm (le_of_lt ht))]
          exact hblt m hm)
      rw [List.append_assoc] at hres
      simpa using hres

theorem initScan_argmax (stop_test : ℕ) (sqrt : ℚ → ℚ) (D : ℕ → ℚ)
    (e0 : ℕ × ℚ) (rest : List (ℕ × ℚ)) :
    ∃ t, t < (e0 :: rest).length ∧
      ((e0 :: rest).getD t ((0 : ℕ), (0 : ℚ))).1 =
        (initScan stop_test sqrt D (e0 :: rest)).s ∧
      (initScan stop_test sqrt D (e0 :: rest)).w =
        ((e0 :: rest).getD t ((0 : ℕ), (0 : ℚ))).2 /
          sqrt (D ((e0 :: rest).getD t ((0 : ℕ), (0 : ℚ))).1) ∧
      (∀ m, m < (e0 :: rest).length →
        |((e0 :: rest).getD m ((0 : ℕ), (0 : ℚ))).2 /
            sqrt (D ((e0 :: rest).getD m ((0 : ℕ), (0 : ℚ))).1)| ≤
          |((e0 :: rest).getD t ((0 : ℕ), (0 : ℚ))).2 /
            sqrt (D ((e0 :: rest).getD t ((0 : ℕ), (0 : ℚ))).1)|) ∧
      (∀ m, m < t →
        |((e0 :: rest).getD m ((0 : ℕ), (0 : ℚ))).2 /
            sqrt (D ((e0 :: rest).getD m ((0 : ℕ), (0 : ℚ))).1)| <
          |((e0 :: rest).getD t ((0 : ℕ), (0 : ℚ))).2 /
            sqrt (D ((e0 :: rest).getD t ((0 : ℕ), (0 : ℚ))).1)|) := by
  have hres := scanFold_argmax stop_test (fun e => e.2 / sqrt (D e.1))
    (fun e => |e.2 / D e.1|) rest [e0]
    ⟨e0.1, e0.2 / sqrt (D e0.1), |e0.2 / D e0.1|⟩ 0 (by simp) rfl rfl
    (by
      intro m hm
      have hm0 : m = 0 := by simpa using hm
      subst hm0
      exact le_rfl)
    (by omega)
  obtain ⟨t, ht, hts, htw, hble, hblt⟩ := hres
  have heq : [e0] ++ rest = e0 :: rest := rfl
  rw [heq] at ht hts htw hble hblt
  refine ⟨t, ht, hts, ?_, ?_, ?_⟩
  · have : (initScan stop_test sqrt D (e0 :: rest)).w =
        (rest.foldl (fun acc e => scanStep stop_test acc e.1
          (e.2 / sqrt (D e.1)) |e.2 / D e.1|)
          ⟨e0.1, e0.2 / sqrt (D e0.1), |e0.2 / D e0.1|⟩).w := rfl
    rw [this]
    exact htw
  · intro m hm
    have h1 := hble m hm
    have hW : (rest.foldl (fun acc e => scanStep stop_test acc e.1
        (e.2 / sqrt (D e.1)) |e.2 / D e.1|)
        ⟨e0.1, e0.2 / sqrt (D e0.1), |e0.2 / D e0.1|⟩).w =
        ((e0 :: rest).getD t ((0 : ℕ), (0 : ℚ))).2 /
          sqrt (D ((e0 :: rest).getD t ((0 : ℕ), (0 : ℚ))).1) := htw
    rw [hW] at h1
    exact h1
  · intro m hm
    have h1 := hblt m hm
    have hW : (rest.foldl (fun acc e => scanStep stop_test acc e.1
        (e.2 / sqrt (D e.1)) |e.2 / D e.1|)
        ⟨e0.1, e0.2 / sqrt (D e0.1), |e0.2 / D e0.1|⟩).w =
        ((e0 :: rest).getD t ((0 : ℕ), (0 : ℚ))).2 /
          sqrt (D ((e0 :: rest).getD t ((0 : ℕ), (0 : ℚ))).1) := htw
    rw [hW] at h1
    exact h1

theorem colBody_Qi (stop_test : ℕ) (sqrt : ℚ → ℚ) (A : sp_mat_c) (D : ℕ → ℚ)
    (uj : ℚ) (st : ColState) :
    (colBody stop_test sqrt A D uj st).Qi = st.Qi ++ [st.s] := rfl

theorem colLoop_Qi_mono (stop_test : ℕ) (sqrt : ℚ → ℚ) (A : sp_mat_c)
    (D : ℕ → ℚ) (uj tol : ℚ) :
    ∀ (fuel : ℕ) (st : ColState), ∃ suf,
      (colLoop stop_test sqrt A D uj tol fuel st).Qi = st.Qi ++ suf := by
  intro fuel
  induction fuel with
  | zero => exact fun st => ⟨[], by simp [colLoop]⟩
  | succ fuel ih =>
    intro st
    rw [colLoop]
    split
    · obtain ⟨suf, hsuf⟩ := ih (colBody stop_test sqrt A D uj st)
      refine ⟨st.s :: suf, ?_⟩
      rw [hsuf, colBody_Qi, List.append_assoc]
      rfl
    · exact ⟨[], by simp⟩

theorem colEntries_length (A : sp_mat_c) (j : ℕ) :
    (colEntries A j).length = A.jc (j + 1) - A.jc j := by
  simp [colEntries]

theorem processColumn_proj (stop_test : ℕ) (sqrt : ℚ → ℚ) (A B : sp_mat_c)
    (D : ℕ → ℚ) (uj tol : ℚ) (fuel j : ℕ) (g : GState)
    (h : ¬B.jc (j + 1) - B.jc j < 1) :
    (processColumn stop_test sqrt A B D uj tol fuel j g).1 =
      heap_sort_list (colLoop stop_test sqrt A D uj tol fuel
        ⟨0, [], [], colEntries B j,
          (colEntries B j).foldl (fun b e => updQ b e.1 0) g.beta,
          g.map_to_Qi, g.X_sum, g.sv, g.flag,
          (initScan stop_test sqrt D (colEntries B j)).s,
          (initScan stop_test sqrt D (colEntries B j)).w,
          (initScan stop_test sqrt D (colEntries B j)).norm⟩).Qi := by
  simp only [processColumn, if_neg h]

/-- C1 (amended): for every column `j` with `nnz(B e_j) >= 1` the initial
pivot `s0` equals the first maximiser, in the order of `B`'s row-index array
for column `j`, of `|b_i| / sqrt(D_i)` (strict `>` keeps the earlier
candidate on ties), so `s0` lies in the support of `B e_j`; and whenever the
expansion loop runs at all (the initial norm exceeds the adjusted tolerance
and fuel is available) the emitted skeleton column is non-empty and
contains `s0`.  (As originally stated the claim is refuted by
`C1_first_pivot_counterexample`: a column whose initial norm is already
within tolerance gets an empty skeleton even though `nnz >= 1`.) -/
theorem C1_first_pivot (stop_test : ℕ) (sqrt : ℚ → ℚ) (A B : sp_mat_c)
    (D : ℕ → ℚ) (j : ℕ)
    (hnz : 1 ≤ B.jc (j + 1) - B.jc j)
    (hsq : ∀ i ∈ (colEntries B j).map Prod.fst, 0 < sqrt (D i)) :
    (∃ t, t < (colEntries B j).length ∧
      ((colEntries B j).getD t ((0 : ℕ), (0 : ℚ))).1 =
        (initScan stop_test sqrt D (colEntries B j)).s ∧
      (∀ m, m < (colEntries B j).length →
        |((colEntries B j).getD m ((0 : ℕ), (0 : ℚ))).2| /
            sqrt (D ((colEntries B j).getD m ((0 : ℕ), (0 : ℚ))).1) ≤
          |((colEntries B j).getD t ((0 : ℕ), (0 : ℚ))).2| /
            sqrt (D ((colEntries B j).getD t ((0 : ℕ), (0 : ℚ))).1)) ∧
      (∀ m, m < t →
        |((colEntries B j).getD m ((0 : ℕ), (0 : ℚ))).2| /
            sqrt (D ((colEntries B j).getD m ((0 : ℕ), (0 : ℚ))).1) <
          |((colEntries B j).getD t ((0 : ℕ), (0 : ℚ))).2| /
            sqrt (D ((colEntries B j).getD t ((0 : ℕ), (0 : ℚ))).1)))
    ∧ (initScan stop_test sqrt D (colEntries B j)).s ∈
        (colEntries B j).map Prod.fst
    ∧ (∀ (uj tol' : ℚ) (fuel : ℕ) (g : GState),
        tol' < (initScan stop_test sqrt D (colEntries B j)).norm → 1 ≤ fuel →
        (processColumn stop_test sqrt A B D uj tol' fuel j g).1 ≠ []
        ∧ (initScan stop_test sqrt D (colEntries B j)).s ∈
            (processColumn stop_test sqrt A B D uj tol' fuel j g).1) := by
  have hne : colEntries B j ≠ [] := by
    intro h
    have := colEntries_length B j
    rw [h] at this
    simp at this
    omega
  obtain ⟨e0, rest, hco⟩ := List.exists_cons_of_ne_nil hne
  have habs : ∀ m, m < (colEntries B j).length →
      |((colEntries B j).getD m ((0 : ℕ), (0 : ℚ))).2 /
          sqrt (D ((colEntries B j).getD m ((0 : ℕ), (0 : ℚ))).1)| =
        |((colEntries B j).getD m ((0 : ℕ), (0 : ℚ))).2| /
          sqrt (D ((colEntries B j).getD m ((0 : ℕ), (0 : ℚ))).1) := by
    intro m hm
    have hmem : (colEntries B j).getD m ((0 : ℕ), (0 : ℚ)) ∈ colEntries B j := by
      rw [List.getD_eq_getElem _ _ hm]
      exact List.getElem_mem _
    have hpos : 0 < sqrt (D ((colEntries B j).getD m ((0 : ℕ), (0 : ℚ))).1) :=
      hsq _ (List.mem_map.mpr ⟨_, hmem, rfl⟩)
    rw [abs_div, abs_of_pos hpos]
  have hax := initScan_argmax stop_test sqrt D e0 rest
  rw [← hco] at hax
  obtain ⟨t, ht, hts, htw, hble, hblt⟩ := hax
  constructor
  · refine ⟨t, ht, hts, ?_, ?_⟩
    · intro m hm
      have := hble m hm
      rw [habs m hm, habs t ht] at this
      exact this
    · intro m hm
      have := hblt m hm
      rw [habs m (by omega), habs t ht] at this
      exact this
  constructor
  · rw [← hts]
    refine List.mem_map.mpr ⟨_, ?_, rfl⟩
    rw [List.getD_eq_getElem _ _ ht]
    exact List.getElem_mem _
  · intro uj tol' fuel g htol hfuel
    obtain ⟨f, rfl⟩ : ∃ f, fuel = f + 1 := ⟨fuel - 1, by omega⟩
    rw [processColumn_proj stop_test sqrt A B D uj tol' (f + 1) j g (by omega)]
    set st0 : ColState :=
      ⟨0, [], [], colEntries B j,
        (colEntries B j).foldl (fun b e => updQ b e.1 0) g.beta,
        g.map_to_Qi, g.X_sum, g.sv, g.flag,
        (initScan stop_test sqrt D (colEntries B j)).s,
        (initScan stop_test sqrt D (colEntries B j)).w,
        (initScan stop_test sqrt D (colEntries B j)).norm⟩ with hst0
    have hloop : colLoop stop_test sqrt A D uj tol' (f + 1) st0 =
        colLoop stop_test sqrt A D uj tol' f
          (colBody stop_test sqrt A D uj st0) :=
      colLoop_step stop_test sqrt A D uj tol' f st0 htol
    obtain ⟨suf, hsuf⟩ := colLoop_Qi_mono stop_test sqrt A D uj tol' f
      (colBody stop_test sqrt A D uj st0)
    have hQi : (colLoop stop_test sqrt A D uj tol' (f + 1) st0).Qi =
        (initScan stop_test sqrt D (colEntries B j)).s :: suf := by
      rw [hloop, hsuf, colBody_Qi]
      rfl
    have hperm := heap_sort_list_perm
      ((colLoop stop_test sqrt A D uj tol' (f + 1) st0).Qi)
    constructor
    · intro hempty
      have := hperm.length_eq
      rw [hempty, hQi] at this
      simp at this
    · rw [hperm.mem_iff, hQi]
      exact List.mem_cons_self _ _

/-- Refutes C1 as originally stated: `B` is 1x1 with the single column
`B e_0 = (1)`, so `nnz(B e_0) = 1 >= 1`, yet with `tol = 4` (adjusted to 2
under policy 2) the initial norm 1 is already within tolerance, the
expansion loop never runs, and the emitted skeleton column is empty. -/
theorem C1_first_pivot_counterexample :
    1 ≤ (⟨1, 1, (fun j => min j 1), (fun _ => 0), fun _ => 1⟩ : sp_mat_c).jc
          (0 + 1) -
        (⟨1, 1, (fun j => min j 1), (fun _ => 0), fun _ => 1⟩ : sp_mat_c).jc 0
    ∧ (interp_skel 2 (fun _ => 1) 4
        ⟨1, 1, (fun j => min j 1), (fun _ => 0), fun _ => 1⟩
        ⟨1, 1, (fun j => min j 1), (fun _ => 0), fun _ => 1⟩
        (fun _ => 1) (fun _ => 1) 4 (fun _ => 0) (fun _ => 0)).1 = [[]] := by
  constructor
  · norm_num
  · have hce : colEntries
        (⟨1, 1, (fun j => min j 1), (fun _ => 0), fun _ => 1⟩ : sp_mat_c) 0 =
        [((0 : ℕ), (1 : ℚ))] := by
      simp [colEntries, List.range_succ]
    have hR : List.range 1 = [0] := rfl
    show (driverAux 2 (fun _ => 1) 4
        ⟨1, 1, (fun j => min j 1), (fun _ => 0), fun _ => 1⟩
        ⟨1, 1, (fun j => min j 1), (fun _ => 0), fun _ => 1⟩
        (fun _ => 1) (fun _ => 1) (adjustTol 2 4) (fun _ => 0) (fun _ => 0)
        1).1 = [[]]
    rw [driverAux, hR, List.foldl_cons, List.foldl_nil]
    show [(processColumn 2 (fun _ => 1)
      ⟨1, 1, (fun j => min j 1), (fun _ => 0), fun _ => 1⟩
      ⟨1, 1, (fun j => min j 1), (fun _ => 0), fun _ => 1⟩
      (fun _ => 1) 1 (adjustTol 2 4) 4 0
      ⟨(fun _ => 0), (fun _ => -1), (fun _ => 0), (fun _ => 0),
        fun _ => false⟩).1] = [[]]
    rw [processColumn_proj 2 (fun _ => 1)
      ⟨1, 1, (fun j => min j 1), (fun _ => 0), fun _ => 1⟩
      ⟨1, 1, (fun j => min j 1), (fun _ => 0), fun _ => 1⟩
      (fun _ => 1) 1 (adjustTol 2 4) 4 0 _
      (by norm_num)]
    rw [colLoop_stop]
    · rfl
    · rw [hce]
      norm_num [initScan, adjustTol]

theorem C1_first_pivot_witness :
    (initScan 2 (fun _ => 1) (fun _ => 1)
        (colEntries ⟨1, 1, (fun j => min j 1), (fun _ => 0), fun _ => 1⟩ 0)).s ∈
      (colEntries ⟨1, 1, (fun j => min j 1), (fun _ => 0), fun _ => 1⟩ 0).map
        Prod.fst :=
  (C1_first_pivot 2 (fun _ => 1)
    ⟨1, 1, (fun j => min j 1), (fun _ => 0), fun _ => 1⟩
    ⟨1, 1, (fun j => min j 1), (fun _ => 0), fun _ => 1⟩ (fun _ => 1) 0
    (by norm_num) (by intro i _; norm_num)).2.1

theorem driverAux_succ (stop_test : ℕ) (sqrt : ℚ → ℚ) (fuel : ℕ)
    (A B : sp_mat_c) (D u : ℕ → ℚ) (tol' : ℚ) (beta0 sv0 : ℕ → ℚ) (j : ℕ) :
    driverAux stop_test sqrt fuel A B D u tol' beta0 sv0 (j + 1) =
      ((driverAux stop_test sqrt fuel A B D u tol' beta0 sv0 j).1 ++
        [(processColumn stop_test sqrt A B D (u j) tol' fuel j
          (driverAux stop_test sqrt fuel A B D u tol' beta0 sv0 j).2).1],
       (processColumn stop_test sqrt A B D (u j) tol' fuel j
          (driverAux stop_test sqrt fuel A B D u tol' beta0 sv0 j).2).2) := by
  unfold driverAux
  rw [List.range_succ, List.foldl_append, List.foldl_cons, List.foldl_nil]

theorem driverAux_len (stop_test : ℕ) (sqrt : ℚ → ℚ) (fuel : ℕ)
    (A B : sp_mat_c) (D u : ℕ → ℚ) (tol' : ℚ) (beta0 sv0 : ℕ → ℚ) :
    ∀ j, (driverAux stop_test sqrt fuel A B D u tol' beta0 sv0 j).1.length = j := by
  intro j
  induction j with
  | zero => rfl
  | succ j ih =>
    rw [driverAux_succ, List.length_append, ih]
    rfl

theorem driverAux_getD (stop_test : ℕ) (sqrt : ℚ → ℚ) (fuel : ℕ)
    (A B : sp_mat_c) (D u : ℕ → ℚ) (tol' : ℚ) (beta0 sv0 : ℕ → ℚ) :
    ∀ n j, j < n →
      (driverAux stop_test sqrt fuel A B D u tol' beta0 sv0 n).1.getD j [] =
        (processColumn stop_test sqrt A B D (u j) tol' fuel j
          (driverAux stop_test sqrt fuel A B D u tol' beta0 sv0 j).2).1 := by
  intro n
  induction n with
  | zero => intro j h; omega
  | succ n ih =>
    intro j h
    rw [driverAux_succ]
    rcases Nat.lt_or_ge j n with hlt | hge
    · rw [getD_append_lt _ _ _ j (by rw [driverAux_len]; exact hlt)]
      exact ih j hlt
    · have hje : j = n := by omega
      subst hje
      have hlen := driverAux_len stop_test sqrt fuel A B D u tol' beta0 sv0 j
      rw [getD_append_len_of _ _ _ _ hlen]

theorem skel_jc_succ (cols : List (List ℕ)) (j : ℕ) (h : j < cols.length) :
    skel_jc cols (j + 1) = skel_jc cols j + (cols.getD j []).length := by
  unfold skel_jc
  rw [List.take_succ, List.map_append, List.sum_append,
    List.getD_eq_getElem _ _ h, List.getElem?_eq_getElem h]
  simp

/-- C7: if `B`'s column `j` is empty (`B.jc[j+1] = B.jc[j]`) the solver emits
an empty skeleton column, leaves the whole driver state untouched (in
particular `X_sum`), and the driver records `col_ptr[j+1] = col_ptr[j]`;
processing then continues with column `j+1`. -/
theorem C7_empty_column (stop_test : ℕ) (sqrt : ℚ → ℚ) (A B : sp_mat_c)
    (D : ℕ → ℚ) (tol' : ℚ) (fuel j : ℕ) (h : B.jc (j + 1) = B.jc j) :
    (∀ (uj : ℚ) (g : GState),
      processColumn stop_test sqrt A B D uj tol' fuel j g = ([], g))
    ∧ (∀ (u : ℕ → ℚ) (beta0 sv0 : ℕ → ℚ) (tol : ℚ), j < B.n →
        skel_jc (interp_skel stop_test sqrt fuel A B D u tol beta0 sv0).1 (j + 1)
          = skel_jc (interp_skel stop_test sqrt fuel A B D u tol beta0 sv0).1 j) := by
  have hcol : ∀ (uj : ℚ) (g : GState),
      processColumn stop_test sqrt A B D uj tol' fuel j g = ([], g) := by
    intro uj g
    unfold processColumn
    rw [if_pos (by omega)]
  refine ⟨hcol, ?_⟩
  intro u beta0 sv0 tol hj
  have hcol' : ∀ (uj : ℚ) (g : GState),
      processColumn stop_test sqrt A B D uj (adjustTol stop_test tol) fuel j g =
        ([], g) := by
    intro uj g
    unfold processColumn
    rw [if_pos (by omega)]
  show skel_jc (driverAux stop_test sqrt fuel A B D u (adjustTol stop_test tol)
      beta0 sv0 B.n).1 (j + 1) = skel_jc _ j
  rw [skel_jc_succ _ j (by rw [driverAux_len]; exact hj),
    driverAux_getD _ _ _ _ _ _ _ _ _ _ B.n j hj, hcol']
  rfl

theorem C7_empty_column_witness :
    processColumn 2 (fun _ => 1) ⟨1, 1, (fun _ => 0), (fun _ => 0), fun _ => 1⟩
      ⟨1, 1, (fun _ => 0), (fun _ => 0), fun _ => 1⟩ (fun _ => 1) 1 2 4 0
      ⟨(fun _ => 0), (fun _ => -1), (fun _ => 0), (fun _ => 0), fun _ => false⟩ =
      ([], ⟨(fun _ => 0), (fun _ => -1), (fun _ => 0), (fun _ => 0),
        fun _ => false⟩) :=
  (C7_empty_column 2 (fun _ => 1) ⟨1, 1, (fun _ => 0), (fun _ => 0), fun _ => 1⟩
    ⟨1, 1, (fun _ => 0), (fun _ => 0), fun _ => 1⟩ (fun _ => 1) 2 4 0 rfl).1 1 _

/-- C5: for a column `j` with `nnz(B e_j) >= 1` whose initial stopping norm
is already within the adjusted tolerance, the expansion loop body never
runs: the emitted skeleton column is empty, `X_sum` is not modified, and
`map_to_Qi` is never written; at the driver level
`col_ptr[j+1] = col_ptr[j]`. -/
theorem C5_early_stop (stop_test : ℕ) (sqrt : ℚ → ℚ) (A B : sp_mat_c)
    (D : ℕ → ℚ) (tol' : ℚ) (fuel j : ℕ)
    (hnz : 1 ≤ B.jc (j + 1) - B.jc j)
    (hnorm : (initScan stop_test sqrt D (colEntries B j)).norm ≤ tol') :
    (∀ (uj : ℚ) (g : GState),
      (processColumn stop_test sqrt A B D uj tol' fuel j g).1 = []
      ∧ (processColumn stop_test sqrt A B D uj tol' fuel j g).2.X_sum = g.X_sum
      ∧ (processColumn stop_test sqrt A B D uj tol' fuel j g).2.map_to_Qi =
          g.map_to_Qi)
    ∧ (∀ (u : ℕ → ℚ) (beta0 sv0 : ℕ → ℚ) (tol : ℚ), j < B.n →
        adjustTol stop_test tol = tol' →
        skel_jc (interp_skel stop_test sqrt fuel A B D u tol beta0 sv0).1 (j + 1)
          = skel_jc (interp_skel stop_test sqrt fuel A B D u tol beta0 sv0).1 j) := by
  have hmain : ∀ (uj : ℚ) (g : GState),
      processColumn stop_test sqrt A B D uj tol' fuel j g =
        ([], ⟨(colEntries B j).foldl (fun b e => updQ b e.1 0) g.beta,
          g.map_to_Qi, g.X_sum, g.sv, g.flag⟩) := by
    intro uj g
    simp only [processColumn]
    rw [if_neg (by omega)]
    rw [colLoop_stop _ _ _ _ _ _ _ _ (not_lt.mpr hnorm)]
    rfl
  constructor
  · intro uj g
    rw [hmain uj g]
    exact ⟨rfl, rfl, rfl⟩
  · intro u beta0 sv0 tol hj htol
    show skel_jc (driverAux stop_test sqrt fuel A B D u (adjustTol stop_test tol)
        beta0 sv0 B.n).1 (j + 1) = skel_jc _ j
    rw [skel_jc_succ _ j (by rw [driverAux_len]; exact hj),
      driverAux_getD _ _ _ _ _ _ _ _ _ _ B.n j hj, htol, hmain]
    simp [interp_skel, htol]

theorem C5_early_stop_witness :
    (processColumn 2 (fun _ => 1)
      ⟨1, 1, (fun j => min j 1), (fun _ => 0), fun _ => 1⟩
      ⟨1, 1, (fun j => min j 1), (fun _ => 0), fun _ => 1⟩
      (fun _ => 1) 1 2 4 0
      ⟨(fun _ => 0), (fun _ => -1), (fun _ => 0), (fun _ => 0),
        fun _ => false⟩).1 = [] :=
  ((C5_early_stop 2 (fun _ => 1)
    ⟨1, 1, (fun j => min j 1), (fun _ => 0), fun _ => 1⟩
    ⟨1, 1, (fun j => min j 1), (fun _ => 0), fun _ => 1⟩
    (fun _ => 1) 2 4 0 (by norm_num)
    (by norm_num [colEntries, initScan, List.range_succ])).1 1 _).1

theorem reset_foldl : ∀ (l : List ℕ) (mp : ℕ → ℤ) (i : ℕ),
    (l.foldl (fun mp i => updZ mp i (-1)) mp) i = if i ∈ l then -1 else mp i := by
  intro l
  induction l with
  | nil => simp
  | cons a t ih =>
    intro mp i
    rw [List.foldl_cons, ih]
    by_cases hit : i ∈ t
    · simp [hit]
    · by_cases hia : i = a
      · subst hia
        simp [hit, updZ]
      · simp [hit, hia, updZ]

theorem colBody_flag_clean (stop_test : ℕ) (sqrt : ℚ → ℚ) (A : sp_mat_c)
    (D : ℕ → ℚ) (uj : ℚ) (st : ColState) (h : ∀ i, st.flag i = false) :
    ∀ i, (colBody stop_test sqrt A D uj st).flag i = false := by
  intro i
  show (sp_mv A _ _ _ st.flag _).2.2.2.2 i = false
  exact (sp_mv_spec A _ _ _ st.flag _ h).2.2.2.1 i

theorem colBody_map_clean (stop_test : ℕ) (sqrt : ℚ → ℚ) (A : sp_mat_c)
    (D : ℕ → ℚ) (uj : ℚ) (st : ColState)
    (h : ∀ i, i ∉ st.Qi → st.map_to_Qi i = -1) :
    ∀ i, i ∉ (colBody stop_test sqrt A D uj st).Qi →
      (colBody stop_test sqrt A D uj st).map_to_Qi i = -1 := by
  intro i hi
  have hm : (colBody stop_test sqrt A D uj st).map_to_Qi
      = updZ st.map_to_Qi st.s (st.k : ℤ) := rfl
  rw [colBody_Qi] at hi
  simp only [List.mem_append, List.mem_singleton] at hi
  push_neg at hi
  rw [hm]
  simp only [updZ]
  rw [if_neg hi.2]
  exact h i hi.1

theorem colLoop_clean (stop_test : ℕ) (sqrt : ℚ → ℚ) (A : sp_mat_c)
    (D : ℕ → ℚ) (uj tol : ℚ) : ∀ (fuel : ℕ) (st : ColState),
    (∀ i, i ∉ st.Qi → st.map_to_Qi i = -1) → (∀ i, st.flag i = false) →
    (∀ i, i ∉ (colLoop stop_test sqrt A D uj tol fuel st).Qi →
        (colLoop stop_test sqrt A D uj tol fuel st).map_to_Qi i = -1)
    ∧ (∀ i, (colLoop stop_test sqrt A D uj tol fuel st).flag i = false) := by
  intro fuel
  induction fuel with
  | zero => exact fun st hm hf => ⟨hm, hf⟩
  | succ fuel ih =>
    intro st hm hf
    by_cases hc : tol < st.norm
    · rw [colLoop, if_pos hc]
      exact ih _ (colBody_map_clean stop_test sqrt A D uj st hm)
        (colBody_flag_clean stop_test sqrt A D uj st hf)
    · rw [colLoop, if_neg hc]
      exact ⟨hm, hf⟩

theorem processColumn_map (stop_test : ℕ) (sqrt : ℚ → ℚ) (A B : sp_mat_c)
    (D : ℕ → ℚ) (uj tol : ℚ) (fuel j : ℕ) (g : GState)
    (h : ¬B.jc (j + 1) - B.jc j < 1) :
    (processColumn stop_test sqrt A B D uj tol fuel j g).2.map_to_Qi =
      (heap_sort_list (colLoop stop_test sqrt A D uj tol fuel
        ⟨0, [], [], colEntries B j,
          (colEntries B j).foldl (fun b e => updQ b e.1 0) g.beta,
          g.map_to_Qi, g.X_sum, g.sv, g.flag,
          (initScan stop_test sqrt D (colEntries B j)).s,
          (initScan stop_test sqrt D (colEntries B j)).w,
          (initScan stop_test sqrt D (colEntries B j)).norm⟩).Qi).foldl
        (fun mp i => updZ mp i (-1))
        (colLoop stop_test sqrt A D uj tol fuel
          ⟨0, [], [], colEntries B j,
            (colEntries B j).foldl (fun b e => updQ b e.1 0) g.beta,
            g.map_to_Qi, g.X_sum, g.sv, g.flag,
            (initScan stop_test sqrt D (colEntries B j)).s,
            (initScan stop_test sqrt D (colEntries B j)).w,
            (initScan stop_test sqrt D (colEntries B j)).norm⟩).map_to_Qi := by
  simp only [processColumn, if_neg h]

theorem processColumn_flag (stop_test : ℕ) (sqrt : ℚ → ℚ) (A B : sp_mat_c)
    (D : ℕ → ℚ) (uj tol : ℚ) (fuel j : ℕ) (g : GState)
    (h : ¬B.jc (j + 1) - B.jc j < 1) :
    (processColumn stop_test sqrt A B D uj tol fuel j g).2.flag =
      (colLoop stop_test sqrt A D uj tol fuel
        ⟨0, [], [], colEntries B j,
          (colEntries B j).foldl (fun b e => updQ b e.1 0) g.beta,
          g.map_to_Qi, g.X_sum, g.sv, g.flag,
          (initScan stop_test sqrt D (colEntries B j)).s,
          (initScan stop_test sqrt D (colEntries B j)).w,
          (initScan stop_test sqrt D (colEntries B j)).norm⟩).flag := by
  simp only [processColumn, if_neg h]

theorem processColumn_clean (stop_test : ℕ) (sqrt : ℚ → ℚ) (A B : sp_mat_c)
    (D : ℕ → ℚ) (uj tol : ℚ) (fuel j : ℕ) (g : GState)
    (hm : ∀ i, g.map_to_Qi i = -1) (hf : ∀ i, g.flag i = false) :
    (∀ i, (processColumn stop_test sqrt A B D uj tol fuel j g).2.map_to_Qi i = -1)
    ∧ (∀ i, (processColumn stop_test sqrt A B D uj tol fuel j g).2.flag i = false) := by
  by_cases hz : B.jc (j + 1) - B.jc j < 1
  · have hg : (processColumn stop_test sqrt A B D uj tol fuel j g).2 = g := by
      simp only [processColumn, if_pos hz]
    rw [hg]
    exact ⟨hm, hf⟩
  · obtain ⟨hm', hf'⟩ := colLoop_clean stop_test sqrt A D uj tol fuel
      ⟨0, [], [], colEntries B j,
        (colEntries B j).foldl (fun b e => updQ b e.1 0) g.beta,
        g.map_to_Qi, g.X_sum, g.sv, g.flag,
        (initScan stop_test sqrt D (colEntries B j)).s,
        (initScan stop_test sqrt D (colEntries B j)).w,
        (initScan stop_test sqrt D (colEntries B j)).norm⟩
      (fun i _ => hm i) hf
    constructor
    · intro i
      rw [processColumn_map stop_test sqrt A B D uj tol fuel j g hz, reset_foldl]
      by_cases hin : i ∈ heap_sort_list (colLoop stop_test sqrt A D uj tol fuel
          ⟨0, [], [], colEntries B j,
            (colEntries B j).foldl (fun b e => updQ b e.1 0) g.beta,
            g.map_to_Qi, g.X_sum, g.sv, g.flag,
            (initScan stop_test sqrt D (colEntries B j)).s,
            (initScan stop_test sqrt D (colEntries B j)).w,
            (initScan stop_test sqrt D (colEntries B j)).norm⟩).Qi
      · rw [if_pos hin]
      · rw [if_neg hin]
        refine hm' i ?_
        intro hQ
        exact hin ((heap_sort_list_perm _).mem_iff.mpr hQ)
    · intro i
      rw [processColumn_flag stop_test sqrt A B D uj tol fuel j g hz]
      exact hf' i

theorem driverAux_clean (stop_test : ℕ) (sqrt : ℚ → ℚ) (fuel : ℕ)
    (A B : sp_mat_c) (D u : ℕ → ℚ) (tol' : ℚ) (beta0 sv0 : ℕ → ℚ) : ∀ n,
    (∀ i, (driverAux stop_test sqrt fuel A B D u tol' beta0 sv0 n).2.map_to_Qi i
        = -1)
    ∧ (∀ i, (driverAux stop_test sqrt fuel A B D u tol' beta0 sv0 n).2.flag i
        = false) := by
  intro n
  induction n with
  | zero => exact ⟨fun _ => rfl, fun _ => rfl⟩
  | succ n ih =>
    rw [driverAux_succ]
    exact processColumn_clean stop_test sqrt A B D (u n) tol' fuel n _ ih.1 ih.2

/-- C6: workspace cleanliness.  Whenever a column solve starts with
`map_to_Qi` all `-1` and `flag` all zero, both invariants hold again the
moment the column finishes; consequently after every prefix of the driver
loop (in particular after each column, and on the final state) `map_to_Qi`
is all `-1` and `flag` all zero; and every `sp_mv` call entered with an
all-zero `flag` exits with an all-zero `flag`.  So consecutive columns and
consecutive `sp_mv` calls start from clean workspaces without
reinitialization. -/
theorem C6_workspace_clean (stop_test : ℕ) (sqrt : ℚ → ℚ) (fuel : ℕ)
    (A B : sp_mat_c) (D u : ℕ → ℚ) (tol' : ℚ) (beta0 sv0 : ℕ → ℚ) :
    (∀ (uj tol : ℚ) (j : ℕ) (g : GState),
      (∀ i, g.map_to_Qi i = -1) → (∀ i, g.flag i = false) →
      (∀ i, (processColumn stop_test sqrt A B D uj tol fuel j g).2.map_to_Qi i
          = -1)
      ∧ (∀ i, (processColumn stop_test sqrt A B D uj tol fuel j g).2.flag i
          = false))
    ∧ (∀ n i,
        (driverAux stop_test sqrt fuel A B D u tol' beta0 sv0 n).2.map_to_Qi i
          = -1
        ∧ (driverAux stop_test sqrt fuel A B D u tol' beta0 sv0 n).2.flag i
          = false)
    ∧ (∀ (A2 : sp_mat_c) (x : List (ℕ × ℚ)) (yi0 : ℕ → ℕ) (sv2 : ℕ → ℚ)
        (flag0 : ℕ → Bool) (mask : ℕ → ℤ), (∀ i, flag0 i = false) →
        ∀ i, (sp_mv A2 x yi0 sv2 flag0 mask).2.2.2.2 i = false) := by
  refine ⟨?_, ?_, ?_⟩
  · exact fun uj tol j g hm hf =>
      processColumn_clean stop_test sqrt A B D uj tol fuel j g hm hf
  · intro n i
    exact ⟨(driverAux_clean stop_test sqrt fuel A B D u tol' beta0 sv0 n).1 i,
      (driverAux_clean stop_test sqrt fuel A B D u tol' beta0 sv0 n).2 i⟩
  · intro A2 x yi0 sv2 flag0 mask hflag i
    exact (sp_mv_spec A2 x yi0 sv2 flag0 mask hflag).2.2.2.1 i

theorem C6_workspace_clean_witness :
    ((processColumn 2 (fun _ => 1)
      ⟨1, 1, (fun j => min j 1), (fun _ => 0), fun _ => 1⟩
      ⟨1, 1, (fun j => min j 1), (fun _ => 0), fun _ => 1⟩
      (fun _ => 1) 1 2 4 0
      ⟨(fun _ => 0), (fun _ => -1), (fun _ => 0), (fun _ => 0),
        fun _ => false⟩).2.map_to_Qi 0 = -1)
    ∧ ((sp_mv ⟨1, 1, (fun j => min j 1), (fun _ => 0), fun _ => 1⟩ []
        (fun _ => 0) (fun _ => 0) (fun _ => false) (fun _ => -1)).2.2.2.2 0
      = false) :=
  ⟨((C6_workspace_clean 2 (fun _ => 1) 4
      ⟨1, 1, (fun j => min j 1), (fun _ => 0), fun _ => 1⟩
      ⟨1, 1, (fun j => min j 1), (fun _ => 0), fun _ => 1⟩
      (fun _ => 1) (fun _ => 1) 1 (fun _ => 0) (fun _ => 0)).1
      1 2 0 ⟨(fun _ => 0), (fun _ => -1), (fun _ => 0), (fun _ => 0),
        fun _ => false⟩ (fun _ => rfl) (fun _ => rfl)).1 0,
   (C6_workspace_clean 2 (fun _ => 1) 4
      ⟨1, 1, (fun j => min j 1), (fun _ => 0), fun _ => 1⟩
      ⟨1, 1, (fun j => min j 1), (fun _ => 0), fun _ => 1⟩
      (fun _ => 1) (fun _ => 1) 1 (fun _ => 0) (fun _ => 0)).2.2
      ⟨1, 1, (fun j => min j 1), (fun _ => 0), fun _ => 1⟩ []
      (fun _ => 0) (fun _ => 0) (fun _ => false) (fun _ => -1)
      (fun _ => rfl) 0⟩

/-- C10: any input violating one of the five shape/type preconditions (A not
square; rows(A) != rows(B); D not an m-by-1 column; u not an n-by-1 column
with n = cols(B); tau not a real double scalar) makes `mexFunction` emit a
diagnostic and return early with an `error`, so the outputs `X_skel` and
`X_sum` are never produced. -/
theorem C10_input_validation (stop_test : ℕ) (sqrt : ℚ → ℚ) (fuel : ℕ)
    (beta0 sv0 : ℕ → ℚ) (nlhs nrhs : ℕ) (prhs : ℕ → mxArray)
    (h : (prhs 0).m ≠ (prhs 0).n
       ∨ (prhs 0).m ≠ (prhs 1).m
       ∨ ((prhs 2).m ≠ (prhs 0).m ∨ (prhs 2).n ≠ 1)
       ∨ ((prhs 3).m ≠ (prhs 1).n ∨ (prhs 3).n ≠ 1)
       ∨ ((prhs 4).isSparse = true ∨ ¬(prhs 4).isDouble = true
          ∨ (prhs 4).isComplex = true ∨ (prhs 4).m ≠ 1 ∨ (prhs 4).n ≠ 1)) :
    ∃ msg, mexFunction stop_test sqrt fuel beta0 sv0 nlhs nrhs prhs =
      .error msg := by
  unfold mexFunction
  by_cases h1 : nrhs ≠ 5
  · rw [if_pos h1]; exact ⟨_, rfl⟩
  rw [if_neg h1]
  by_cases h2 : nlhs ≠ 2
  · rw [if_pos h2]; exact ⟨_, rfl⟩
  rw [if_neg h2]
  by_cases h3 : ¬(prhs 0).isSparse = true ∨ ¬(prhs 0).isDouble = true
      ∨ (prhs 0).isComplex = true
  · rw [if_pos h3]; exact ⟨_, rfl⟩
  rw [if_neg h3]
  by_cases h4 : ¬(prhs 1).isSparse = true ∨ ¬(prhs 1).isDouble = true
      ∨ (prhs 1).isComplex = true
  · rw [if_pos h4]; exact ⟨_, rfl⟩
  rw [if_neg h4]
  by_cases h5 : (prhs 2).isSparse = true ∨ ¬(prhs 2).isDouble = true
      ∨ (prhs 2).isComplex = true
  · rw [if_pos h5]; exact ⟨_, rfl⟩
  rw [if_neg h5]
  by_cases h6 : (prhs 3).isSparse = true ∨ ¬(prhs 3).isDouble = true
      ∨ (prhs 3).isComplex = true
  · rw [if_pos h6]; exact ⟨_, rfl⟩
  rw [if_neg h6]
  by_cases h7 : (prhs 4).isSparse = true ∨ ¬(prhs 4).isDouble = true
      ∨ (prhs 4).isComplex = true ∨ (prhs 4).m ≠ 1 ∨ (prhs 4).n ≠ 1
  · rw [if_pos h7]; exact ⟨_, rfl⟩
  rw [if_neg h7]
  by_cases h8 : (prhs 0).m ≠ (prhs 0).n
  · rw [if_pos h8]; exact ⟨_, rfl⟩
  rw [if_neg h8]
  by_cases h9 : (prhs 0).m ≠ (prhs 1).m
  · rw [if_pos h9]; exact ⟨_, rfl⟩
  rw [if_neg h9]
  by_cases h10 : (prhs 2).m ≠ (prhs 0).m ∨ (prhs 2).n ≠ 1
  · rw [if_pos h10]; exact ⟨_, rfl⟩
  rw [if_neg h10]
  by_cases h11 : (prhs 3).m ≠ (prhs 1).n ∨ (prhs 3).n ≠ 1
  · rw [if_pos h11]; exact ⟨_, rfl⟩
  rw [if_neg h11]
  exfalso
  push_neg at h7 h8 h9 h10 h11
  rcases h with h | h | h | h | h
  · exact h h8
  · exact h h9
  · rcases h with h | h
    · exact h h10.1
    · exact h h10.2
  · rcases h with h | h
    · exact h h11.1
    · exact h h11.2
  · rcases h with h | h | h | h | h
    · exact absurd h h7.1
    · exact h h7.2.1
    · exact absurd h h7.2.2.1
    · exact h h7.2.2.2.1
    · exact h h7.2.2.2.2

theorem C10_input_validation_witness :
    ∃ msg, mexFunction 2 (fun _ => 1) 4 (fun _ => 0) (fun _ => 0) 2 5
      (fun i =>
        if i ≤ 1 then
          ⟨true, true, false, 2, 3, (fun _ => 0), (fun _ => 0), fun _ => 0⟩
        else
          ⟨false, true, false, 1, 1, (fun _ => 0), (fun _ => 0), fun _ => 0⟩) =
      .error msg :=
  C10_input_validation 2 (fun _ => 1) 4 (fun _ => 0) (fun _ => 0) 2 5
    (fun i =>
      if i ≤ 1 then
        ⟨true, true, false, 2, 3, (fun _ => 0), (fun _ => 0), fun _ => 0⟩
      else
        ⟨false, true, false, 1, 1, (fun _ => 0), (fun _ => 0), fun _ => 0⟩)
    (Or.inl (by decide))

theorem processColumn_unit (sq : ℚ → ℚ) (A B : sp_mat_c) (D : ℕ → ℚ)
    (uj tol : ℚ) (fuel j : ℕ) (g : GState) (hsq : sq 1 = 1)
    (hA : colEntries A j = [(j, 1)]) (hB : colEntries B j = [(j, 1)])
    (hD : D j = 1) (htol0 : 0 ≤ tol) (htol1 : tol < 1) (hfuel : 1 ≤ fuel) :
    processColumn 2 sq A B D uj tol fuel j g =
      ([j], ⟨updQ g.beta j 0, updZ (updZ g.map_to_Qi j 0) j (-1),
        updQ g.X_sum j (g.X_sum j + uj), fun _ => 0, g.flag⟩) := by
  have hrnz : ¬B.jc (j + 1) - B.jc j < 1 := by
    have hl := colEntries_length B j
    rw [hB] at hl
    simp at hl
    omega
  obtain ⟨f, rfl⟩ : ∃ f, fuel = f + 1 := ⟨fuel - 1, by omega⟩
  have hscan : initScan 2 sq D [(j, (1 : ℚ))] = ⟨j, 1, 1⟩ := by
    simp [initScan, hD, hsq]
  have hbody : colBody 2 sq A D uj
      ⟨0, [], [], [(j, 1)], updQ g.beta j 0, g.map_to_Qi, g.X_sum, g.sv,
        g.flag, j, 1, 1⟩ =
      ⟨1, [j], [[1]], [], updQ g.beta j 0, updZ g.map_to_Qi j 0,
        updQ g.X_sum j (g.X_sum j + uj), fun _ => 0, g.flag, j, 1, 0⟩ := by
    have hr1 : List.range 1 = [0] := by decide
    simp only [colBody]
    norm_num [updQ, updZ, hD, hsq, hA, mv_ut, mv_utt, sp_mv, spmv_accum,
      spmv_entry, resid_update, reScan, List.range_succ, List.range_zero,
      hr1, List.zip_cons_cons]
  have hloop : colLoop 2 sq A D uj tol (f + 1)
      ⟨0, [], [], [(j, 1)], updQ g.beta j 0, g.map_to_Qi, g.X_sum, g.sv,
        g.flag, j, 1, 1⟩ =
      ⟨1, [j], [[1]], [], updQ g.beta j 0, updZ g.map_to_Qi j 0,
        updQ g.X_sum j (g.X_sum j + uj), fun _ => 0, g.flag, j, 1, 0⟩ := by
    rw [colLoop_step 2 sq A D uj tol f _ (by exact htol1), hbody]
    exact colLoop_stop 2 sq A D uj tol f _ (not_lt.mpr htol0)
  have hsingle : heap_sort_list [j] = [j] :=
    List.perm_singleton.mp (heap_sort_list_perm [j])
  simp only [processColumn, if_neg hrnz]
  rw [hB]
  norm_num [hscan, hloop, hsingle, List.foldl_cons, List.foldl_nil]

/-- C9: on the concrete identity input `A = B = I_4` (CSC:
`jc j = min j 4`, `ir p = p`, `pr p = 1`), `D = (1,1,1,1)`, `u = (1,1,1,1)`,
`tau = 10^-6`, the solver emits the identity skeleton (each column's pivot
list is exactly its diagonal index) and `X_sum = (1,1,1,1)`; every
square-root taken is `sqrt 1`, so the only fact needed about the rounded
`sqrt` is `sqrt 1 = 1` and all arithmetic is exact.  The initial contents
`beta0`, `sv0` of the freshly allocated buffers are arbitrary. -/
theorem C9_identity_run (sq : ℚ → ℚ) (beta0 sv0 : ℕ → ℚ) (hsq : sq 1 = 1) :
    ((interp_skel 2 sq 8 ⟨4, 4, (fun j => min j 4), (fun p => p), fun _ => 1⟩
        ⟨4, 4, (fun j => min j 4), (fun p => p), fun _ => 1⟩
        (fun _ => 1) (fun _ => 1) (1 / 1000000) beta0 sv0).1
      = [[0], [1], [2], [3]])
    ∧ (∀ i, i < 4 →
        (interp_skel 2 sq 8 ⟨4, 4, (fun j => min j 4), (fun p => p), fun _ => 1⟩
          ⟨4, 4, (fun j => min j 4), (fun p => p), fun _ => 1⟩
          (fun _ => 1) (fun _ => 1) (1 / 1000000) beta0 sv0).2.X_sum i
        = 1) := by
  have htol0 : (0 : ℚ) ≤ adjustTol 2 (1 / 1000000) := by norm_num [adjustTol]
  have htol1 : adjustTol 2 (1 / 1000000) < 1 := by norm_num [adjustTol]
  constructor
  · show (driverAux 2 sq 8
      ⟨4, 4, (fun j => min j 4), (fun p => p), fun _ => 1⟩
      ⟨4, 4, (fun j => min j 4), (fun p => p), fun _ => 1⟩
      (fun _ => 1) (fun _ => 1) (adjustTol 2 (1 / 1000000)) beta0 sv0
      (0 + 1 + 1 + 1 + 1)).1 = [[0], [1], [2], [3]]
    rw [driverAux_succ, driverAux_succ, driverAux_succ, driverAux_succ]
    rw [processColumn_unit sq _ _ _ _ _ 8 0 _ hsq (by decide) (by decide) rfl
      htol0 htol1 (by norm_num)]
    rw [processColumn_unit sq _ _ _ _ _ 8 (0 + 1) _ hsq (by decide) (by decide)
      rfl htol0 htol1 (by norm_num)]
    rw [processColumn_unit sq _ _ _ _ _ 8 (0 + 1 + 1) _ hsq (by decide)
      (by decide) rfl htol0 htol1 (by norm_num)]
    rw [processColumn_unit sq _ _ _ _ _ 8 (0 + 1 + 1 + 1) _ hsq (by decide)
      (by decide) rfl htol0 htol1 (by norm_num)]
    rfl
  · show ∀ i, i < 4 → (driverAux 2 sq 8
      ⟨4, 4, (fun j => min j 4), (fun p => p), fun _ => 1⟩
      ⟨4, 4, (fun j => min j 4), (fun p => p), fun _ => 1⟩
      (fun _ => 1) (fun _ => 1) (adjustTol 2 (1 / 1000000)) beta0 sv0
      (0 + 1 + 1 + 1 + 1)).2.X_sum i = 1
    rw [driverAux_succ, driverAux_succ, driverAux_succ, driverAux_succ]
    rw [processColumn_unit sq _ _ _ _ _ 8 0 _ hsq (by decide) (by decide) rfl
      htol0 htol1 (by norm_num)]
    rw [processColumn_unit sq _ _ _ _ _ 8 (0 + 1) _ hsq (by decide) (by decide)
      rfl htol0 htol1 (by norm_num)]
    rw [processColumn_unit sq _ _ _ _ _ 8 (0 + 1 + 1) _ hsq (by decide)
      (by decide) rfl htol0 htol1 (by norm_num)]
    rw [processColumn_unit sq _ _ _ _ _ 8 (0 + 1 + 1 + 1) _ hsq (by decide)
      (by decide) rfl htol0 htol1 (by norm_num)]
    intro i hi
    interval_cases i <;> norm_num [driverAux, updQ, List.range_zero]

theorem C9_identity_run_witness :
    ((fun _ => (1 : ℚ)) 1 = 1)
    ∧ ((interp_skel 2 (fun _ => 1) 8
        ⟨4, 4, (fun j => min j 4), (fun p => p), fun _ => 1⟩
        ⟨4, 4, (fun j => min j 4), (fun p => p), fun _ => 1⟩
        (fun _ => 1) (fun _ => 1) (1 / 1000000) (fun _ => 0) (fun _ => 0)).1
      = [[0], [1], [2], [3]]) :=
  ⟨rfl, (C9_identity_run (fun _ => 1) (fun _ => 0) (fun _ => 0) rfl).1⟩

end CInterpSkel
